import Mathlib

/-!
linux_epoll: byte-order converter, TLV codec, outbound queue and connection multiplexer

A shallow embedding of `src/server/byte_converter.cpp`, `src/server/tlv_protocol.cpp`,
`src/server/message_queue.cpp` and the event-loop side of `src/server/epoll_server.cpp`,
followed by theorems about them.

Conventions of the embedding:

* `uint16_t`, `uint32_t`, `uint64_t` and `size_t` values are natural numbers; every
  operation that can leave the width is followed by an explicit `% 2 ^ w`.
  `size_t` is 64 bits wide (the server is a Linux epoll program built for LP64).
* A `char` is a `Byte` (its bit pattern, `Fin 256`); a `std::vector<char>` and a
  `(pointer, length)` buffer are `List Byte`.
* `memcpy` between an integer object and a buffer depends on the byte order of the
  machine the program runs on. That machine byte order is the parameter `host` of the
  functions that copy integers to or from memory.
* A `std::queue` is a list whose head is the front of the queue; a `std::map<int, _>`
  is an association list with strictly ascending keys.
* Each method of `MessageQueue` runs under a `std::lock_guard` of the one mutex, so it
  is a single atomic state transition; the mutex itself is not represented.
-/

set_option autoImplicit false

/-! ## Memory representation of integers -/

/-- One `char` of memory, as its bit pattern. -/
abbrev Byte := Fin 256

/-- Byte order enumeration of `byte_converter.h`. -/
inductive ByteOrder where
  | LittleEndian
  | BigEndian
  deriving DecidableEq, Repr

/-- The low-order byte of a number. -/
def toByte (n : Nat) : Byte := ⟨n % 256, Nat.mod_lt _ (by decide)⟩

/-- The `w` low-order bytes of `v`, least significant byte first. -/
def bytesLE : Nat → Nat → List Byte
  | 0, _ => []
  | w + 1, v => toByte v :: bytesLE w (v / 256)

/-- The number whose bytes, least significant first, are `bs`. -/
def valueLE : List Byte → Nat
  | [] => 0
  | b :: bs => b.val + 256 * valueLE bs

/-- Object representation of a `w`-byte unsigned integer `v` on a machine whose byte
order is `host`: what `memcpy(dst, &v, w)` writes. -/
def objectBytes (host : ByteOrder) (w v : Nat) : List Byte :=
  match host with
  | ByteOrder.LittleEndian => bytesLE w v
  | ByteOrder.BigEndian => (bytesLE w v).reverse

/-- The unsigned integer whose object representation on a `host`-ordered machine is
`bs`: what `memcpy(&v, src, w)` leaves in `v`. -/
def objectValue (host : ByteOrder) (bs : List Byte) : Nat :=
  match host with
  | ByteOrder.LittleEndian => valueLE bs
  | ByteOrder.BigEndian => valueLE bs.reverse

/-- Byte `k` of a number, byte 0 being the least significant. -/
def byteAt (v k : Nat) : Nat := v / 256 ^ k % 256

/-! ## `ByteConverter` (byte_converter.cpp) -/

/-- State of a `ByteConverter`. -/
structure ByteConverter where
  m_byte_order : ByteOrder
  m_host_order : ByteOrder
  deriving DecidableEq, Repr

namespace ByteConverter

/-- Function `ByteConverter::GetHostByteOrder`: store the 16-bit pattern `0x0102` and
look at the byte at the lowest address. -/
def GetHostByteOrder (host : ByteOrder) : ByteOrder :=
  let test := objectBytes host 2 0x0102
  if test.head? = some 0x02 then ByteOrder.LittleEndian else ByteOrder.BigEndian

/-- Constructor `ByteConverter::ByteConverter`. -/
def new (host : ByteOrder) : ByteConverter :=
  { m_byte_order := ByteOrder.BigEndian, m_host_order := GetHostByteOrder host }

/-- Function `ByteConverter::SetByteOrder`. -/
def SetByteOrder (c : ByteConverter) (order : ByteOrder) : ByteConverter :=
  { c with m_byte_order := order }

/-- Function `ByteConverter::GetByteOrder`. -/
def GetByteOrder (c : ByteConverter) : ByteOrder := c.m_byte_order

/-- Function `ByteConverter::Swap16`. The operands are promoted to `int`; the result is
converted back to `uint16_t`. -/
def Swap16 (value : Nat) : Nat :=
  (((value &&& 0x00FF) <<< 8) |||
   ((value &&& 0xFF00) >>> 8)) % 2 ^ 16

/-- Function `ByteConverter::Swap32`, in `uint32_t` arithmetic. -/
def Swap32 (value : Nat) : Nat :=
  ((((value &&& 0x000000FF) <<< 24) % 2 ^ 32) |||
   (((value &&& 0x0000FF00) <<< 8) % 2 ^ 32) |||
   ((value &&& 0x00FF0000) >>> 8) |||
   ((value &&& 0xFF000000) >>> 24)) % 2 ^ 32

/-- Function `ByteConverter::Swap64`, in `uint64_t` arithmetic. -/
def Swap64 (value : Nat) : Nat :=
  ((((value &&& 0x00000000000000FF) <<< 56) % 2 ^ 64) |||
   (((value &&& 0x000000000000FF00) <<< 40) % 2 ^ 64) |||
   (((value &&& 0x0000000000FF0000) <<< 24) % 2 ^ 64) |||
   (((value &&& 0x00000000FF000000) <<< 8) % 2 ^ 64) |||
   ((value &&& 0x000000FF00000000) >>> 8) |||
   ((value &&& 0x0000FF0000000000) >>> 24) |||
   ((value &&& 0x00FF000000000000) >>> 40) |||
   ((value &&& 0xFF00000000000000) >>> 56)) % 2 ^ 64

/-- Function `ByteConverter::Convert16`. -/
def Convert16 (c : ByteConverter) (value : Nat) : Nat :=
  if c.m_host_order = c.m_byte_order then value else Swap16 value

/-- Function `ByteConverter::Convert32`. -/
def Convert32 (c : ByteConverter) (value : Nat) : Nat :=
  if c.m_host_order = c.m_byte_order then value else Swap32 value

/-- Function `ByteConverter::Convert64`. -/
def Convert64 (c : ByteConverter) (value : Nat) : Nat :=
  if c.m_host_order = c.m_byte_order then value else Swap64 value

end ByteConverter

/-! ## `TLVProtocol` (tlv_protocol.h, tlv_protocol.cpp) -/

/-- The struct `TLVMessage`. -/
structure TLVMessage where
  type : Nat
  length : Nat
  value : List Byte
  deriving DecidableEq, Repr

/-- Default constructor `TLVMessage::TLVMessage()`. -/
def TLVMessage.default : TLVMessage := { type := 0, length := 0, value := [] }

/-- Reduction of a sum to `size_t`. -/
def size_t (n : Nat) : Nat := n % 2 ^ 64

/-- Library function `std::vector<char>::resize(n)`: keep the first `n` elements, pad
with zero bytes. -/
def resize (v : List Byte) (n : Nat) : List Byte :=
  v.take n ++ List.replicate (n - v.length) 0

/-- Library function `memcpy(dst + off, src, n)` where `src` holds the `n` bytes that
are copied. Writing outside `dst` is undefined behaviour: `none`. -/
def memcpy (dst : List Byte) (off : Nat) (src : List Byte) : Option (List Byte) :=
  if off + src.length ≤ dst.length then
    some (dst.take off ++ src ++ dst.drop (off + src.length))
  else none

/-- The `n` bytes that a read of `n` bytes from the start of the storage of `v` sees.
Reading past the end of the vector is undefined behaviour: `none`. -/
def readData (v : List Byte) (n : Nat) : Option (List Byte) :=
  if n ≤ v.length then some (v.take n) else none

/-- State of a `TLVProtocol`. -/
structure TLVProtocol where
  m_converter : ByteConverter
  deriving DecidableEq, Repr

namespace TLVProtocol

/-- The constant `TLVProtocol::TLV_HEADER_SIZE`. -/
def TLV_HEADER_SIZE : Nat := 6

/-- Constructor `TLVProtocol::TLVProtocol`: a default converter, then the byte order is
set to big-endian. -/
def new (host : ByteOrder) : TLVProtocol :=
  { m_converter := (ByteConverter.new host).SetByteOrder ByteOrder.BigEndian }

/-- Function `TLVProtocol::SetByteOrder`. -/
def SetByteOrder (p : TLVProtocol) (order : ByteOrder) : TLVProtocol :=
  { m_converter := p.m_converter.SetByteOrder order }

/-- Function `TLVProtocol::ParseMessage(data, len, msg, consumed)`. The buffer `data` has
`len = data.length` bytes; `msg` is the caller's message object, which the function
updates in place. The result is the returned flag, the message object afterwards and
the value left in `consumed`. -/
def ParseMessage (host : ByteOrder) (p : TLVProtocol) (data : List Byte)
    (msg : TLVMessage) : Bool × TLVMessage × Nat :=
  let len := data.length
  if len < TLV_HEADER_SIZE then
    (false, msg, 0)
  else
    let type := objectValue host (data.take 2)
    let msg := { msg with type := p.m_converter.Convert16 type }
    let length := objectValue host ((data.drop 2).take 4)
    let msg := { msg with length := p.m_converter.Convert32 length }
    if len < size_t (TLV_HEADER_SIZE + msg.length) then
      (false, msg, 0)
    else
      let msg := { msg with value := (data.drop TLV_HEADER_SIZE).take msg.length }
      (true, msg, size_t (TLV_HEADER_SIZE + msg.length))

/-- Function `TLVProtocol::SerializeMessage(msg, output)`. The result is the returned flag and
the contents of `output` afterwards; `none` when a `memcpy` of the source leaves the
storage of its source or destination. -/
def SerializeMessage (host : ByteOrder) (p : TLVProtocol) (msg : TLVMessage)
    (output : List Byte) : Option (Bool × List Byte) := do
  let total_size := size_t (TLV_HEADER_SIZE + msg.length)
  let output := resize output total_size
  let type := p.m_converter.Convert16 msg.type
  let output ← memcpy output 0 (objectBytes host 2 type)
  let length := p.m_converter.Convert32 msg.length
  let output ← memcpy output 2 (objectBytes host 4 length)
  if msg.length > 0 then
    let src ← readData msg.value msg.length
    let output ← memcpy output TLV_HEADER_SIZE src
    pure (true, output)
  else
    pure (true, output)

end TLVProtocol

/-- A codec as the program constructs it on a `host`-ordered machine and configures it
with `SetByteOrder order`. -/
def codec (host order : ByteOrder) : TLVProtocol :=
  (TLVProtocol.new host).SetByteOrder order

/-- Encoding of a `w`-byte header field in the byte order of the wire: most significant
byte first for big-endian, least significant byte first for little-endian. -/
def wireBytes (order : ByteOrder) (w v : Nat) : List Byte :=
  match order with
  | ByteOrder.BigEndian => (bytesLE w v).reverse
  | ByteOrder.LittleEndian => bytesLE w v

/-- The number a header field on the wire declares, read in the byte order of the
wire. -/
def wireValue (order : ByteOrder) (bs : List Byte) : Nat :=
  match order with
  | ByteOrder.BigEndian => valueLE bs.reverse
  | ByteOrder.LittleEndian => valueLE bs

/-! ## `MessageQueue` (message_queue.h, message_queue.cpp) -/

/-- The struct `MessageQueue::MessageEntry`. -/
structure MessageEntry where
  data : List Byte
  deriving DecidableEq, Repr

/-- Constructor `MessageEntry(d, len)`: `data.assign(d, d + len)`, the first `len` bytes
of the buffer `d` points to (callers pass a length the buffer has). -/
def MessageEntry.new (d : List Byte) (len : Nat) : MessageEntry :=
  { data := d.take len }

/-- A `std::queue<MessageEntry>`: the head of the list is the front. -/
abbrev EntryQueue := List MessageEntry

/-- A `std::map<int, std::queue<MessageEntry>>` as an association list. -/
abbrev QueueMap := List (Int × EntryQueue)

namespace QueueMap

/-- Library function `std::map::find`: the queue stored under `fd`, `none` for `end()`. -/
def find : QueueMap → Int → Option EntryQueue
  | [], _ => none
  | (k, q) :: rest, fd => if k = fd then some q else find rest fd

/-- Store `q` under `fd`: assign to the element with that key, or insert a new element
at its place in key order. -/
def set : QueueMap → Int → EntryQueue → QueueMap
  | [], fd, q => [(fd, q)]
  | (k, q0) :: rest, fd, q =>
    if k = fd then (fd, q) :: rest
    else if fd < k then (fd, q) :: (k, q0) :: rest
    else (k, q0) :: set rest fd q

/-- Library function `std::map::operator[]`: the map afterwards (an empty queue is
inserted when the key is absent) and the queue the returned reference denotes. -/
def index (m : QueueMap) (fd : Int) : QueueMap × EntryQueue :=
  match find m fd with
  | some q => (m, q)
  | none => (set m fd [], [])

/-- Library function `std::map::erase` of the element with key `fd`. -/
def erase : QueueMap → Int → QueueMap
  | [], _ => []
  | (k, q) :: rest, fd => if k = fd then rest else (k, q) :: erase rest fd

/-- The keys of the map are strictly ascending, as in every `std::map`. -/
def WF (m : QueueMap) : Prop := List.Pairwise (fun a b => a < b) (m.map Prod.fst)

instance (m : QueueMap) : Decidable (WF m) := by
  unfold WF
  infer_instance

end QueueMap

/-- State of a `MessageQueue`. -/
structure MessageQueue where
  m_queues : QueueMap
  deriving DecidableEq, Repr

namespace MessageQueue

/-- Constructor `MessageQueue::MessageQueue`. -/
def new : MessageQueue := { m_queues := [] }

/-- Function `MessageQueue::Push(fd, data, len)`. The pointer `data` is `none` when null and
otherwise the buffer it points to. Result: the returned flag and the state afterwards. -/
def Push (mq : MessageQueue) (fd : Int) (data : Option (List Byte)) (len : Nat) :
    Bool × MessageQueue :=
  match data with
  | none => (false, mq)
  | some d =>
    if fd < 0 ∨ len = 0 then (false, mq)
    else
      let (m, q) := QueueMap.index mq.m_queues fd
      (true, { m_queues := QueueMap.set m fd (q ++ [MessageEntry.new d len]) })

/-- The loop of `PushFront`: move every entry of `old_queue`, front first, to the back
of `new_queue`. Result: `new_queue` and `old_queue` after the loop. -/
def PushFront.moveAll : EntryQueue → EntryQueue → EntryQueue × EntryQueue
  | new_queue, [] => (new_queue, [])
  | new_queue, front :: old_queue => PushFront.moveAll (new_queue ++ [front]) old_queue

/-- Function `MessageQueue::PushFront(fd, data, len)`. -/
def PushFront (mq : MessageQueue) (fd : Int) (data : Option (List Byte)) (len : Nat) :
    Bool × MessageQueue :=
  match data with
  | none => (false, mq)
  | some d =>
    if fd < 0 ∨ len = 0 then (false, mq)
    else
      let new_queue : EntryQueue := [MessageEntry.new d len]
      let (m, old_queue) := QueueMap.index mq.m_queues fd
      let (new_queue, old_queue) := PushFront.moveAll new_queue old_queue
      let m := QueueMap.set m fd old_queue
      (true, { m_queues := QueueMap.set m fd new_queue })

/-- The first loop of `GetMessages`: the sum of the sizes of the entries of a copy of
the queue (used for `reserve` only). -/
def GetMessages.totalSize : EntryQueue → Nat → Nat
  | [], total_size => total_size
  | front :: temp_queue, total_size =>
    GetMessages.totalSize temp_queue (size_t (total_size + front.data.length))

/-- The second loop of `GetMessages`: append the data of every entry, front first, to
`data` and pop it. Result: `data` and the queue after the loop. -/
def GetMessages.merge : EntryQueue → List Byte → List Byte × EntryQueue
  | [], data => (data, [])
  | entry :: queue, data => GetMessages.merge queue (data ++ entry.data)

/-- Function `MessageQueue::GetMessages(fd, data)`. Result: the returned flag, the state
afterwards and the contents of the output vector `data` afterwards. -/
def GetMessages (mq : MessageQueue) (fd : Int) (data : List Byte) :
    Bool × MessageQueue × List Byte :=
  match QueueMap.find mq.m_queues fd with
  | none => (false, mq, data)
  | some q =>
    if q.isEmpty then (false, mq, data)
    else
      let _total_size := GetMessages.totalSize q 0
      let data : List Byte := []
      let (data, queue) := GetMessages.merge q data
      (true, { m_queues := QueueMap.set mq.m_queues fd queue }, data)

/-- Function `MessageQueue::HasMessages(fd)`. -/
def HasMessages (mq : MessageQueue) (fd : Int) : Bool :=
  match QueueMap.find mq.m_queues fd with
  | none => false
  | some q => !q.isEmpty

/-- Function `MessageQueue::GetAllFds()`: the keys, in map order, whose queue is not empty. -/
def GetAllFds (mq : MessageQueue) : List Int :=
  (mq.m_queues.filter (fun pair => !pair.2.isEmpty)).map Prod.fst

/-- Function `MessageQueue::Clear(fd)`. -/
def Clear (mq : MessageQueue) (fd : Int) : MessageQueue :=
  match QueueMap.find mq.m_queues fd with
  | some _ => { m_queues := QueueMap.erase mq.m_queues fd }
  | none => mq

/-- Function `MessageQueue::ClearAll()`. -/
def ClearAll (_mq : MessageQueue) : MessageQueue := { m_queues := [] }

/-- The state after `Push(fd, P.data(), P.size())` for each payload `P` of `ps`, in
order. -/
def pushAll (mq : MessageQueue) (fd : Int) (ps : List (List Byte)) : MessageQueue :=
  ps.foldl (fun acc p => (Push acc fd (some p) p.length).2) mq

/-- The entries queued for `fd`, front first (none when the map has no element). -/
def queued (mq : MessageQueue) (fd : Int) : EntryQueue :=
  (QueueMap.find mq.m_queues fd).getD []

/-- Nothing is queued for `fd`: the map has no element for it, or an empty queue. -/
def NothingQueued (mq : MessageQueue) (fd : Int) : Prop :=
  QueueMap.find mq.m_queues fd = none ∨ QueueMap.find mq.m_queues fd = some []

instance (mq : MessageQueue) (fd : Int) : Decidable (NothingQueued mq fd) := by
  unfold NothingQueued
  infer_instance

end MessageQueue

/-! ## `EpollServer` (epoll_server.h, epoll_server.cpp)

The functions below are the ones the event-loop thread runs. Everything outside the
program is an environment that answers the thread: the results of `read`, `write` and
`accept` come from scripts (an exhausted script answers `EAGAIN`), and so does what each
callback does. A callback is user code; the server operation it can call is
`SendMessage`, so a callback invocation is the list of `SendMessage` calls it makes.
The thread's operations are recorded, in program order, in a trace: the system calls,
the lock and unlock of `m_recv_mutex`, the callback invocations and the removal of the
entries of a connection (erase of its receive buffer, `Clear` of its queue). -/

/-- Constant `EPOLLIN` of `<sys/epoll.h>`. -/
def EPOLLIN : Nat := 0x001

/-- Constant `EPOLLOUT` of `<sys/epoll.h>`. -/
def EPOLLOUT : Nat := 0x004

/-- Constant `EPOLLERR` of `<sys/epoll.h>`. -/
def EPOLLERR : Nat := 0x008

/-- Constant `EPOLLHUP` of `<sys/epoll.h>`. -/
def EPOLLHUP : Nat := 0x010

/-- Constant `EPOLLET` of `<sys/epoll.h>`. -/
def EPOLLET : Nat := 0x80000000

/-- Result of a `read(fd, buffer, BUFFER_SIZE)`: `n ≥ 0` bytes (none at end of stream;
a real read returns at most `BUFFER_SIZE` of them), or `-1` with `EAGAIN` or
`EWOULDBLOCK`, or `-1` with another error. -/
inductive ReadResult where
  | bytes (chunk : List Byte)
  | wouldBlock
  | error
  deriving DecidableEq, Repr

/-- Result of a `write(fd, buf, count)`: the number of bytes accepted, or `-1` with
`EAGAIN` or `EWOULDBLOCK`, or `-1` with another error. -/
inductive WriteResult where
  | accepted (sent : Nat)
  | wouldBlock
  | error
  deriving DecidableEq, Repr

/-- Result of an `accept` on the listening socket together with the outcome of the two
set-up calls made for a new descriptor (`SetNonBlocking`, `AddToEpoll`). -/
inductive AcceptResult where
  | conn (client_fd : Int) (nonblocking_ok : Bool) (add_ok : Bool)
  | wouldBlock
  | error
  deriving DecidableEq, Repr

/-- One call `SendMessage(client_fd, data, len)` made by a callback. -/
structure SendCall where
  client_fd : Int
  data : Option (List Byte)
  len : Nat
  deriving DecidableEq, Repr

/-- One recorded operation of the event-loop thread. -/
inductive Op where
  | epoll_ctl_add (fd : Int) (events : Nat)
  | epoll_ctl_mod (fd : Int) (events : Nat)
  | epoll_ctl_del (fd : Int)
  | close (fd : Int)
  | read (fd : Int) (result : ReadResult)
  | write (fd : Int) (buf : List Byte) (result : WriteResult)
  | accept (listen_fd : Int) (result : AcceptResult)
  | set_nonblocking (fd : Int)
  | lock_recv
  | unlock_recv
  | recv_erase (fd : Int)
  | queue_clear (fd : Int)
  | on_connect (fd : Int)
  | on_disconnect (fd : Int)
  | on_message (fd : Int) (msg : TLVMessage)
  deriving DecidableEq, Repr

/-- A `std::map<int, std::vector<char>>` as an association list. -/
abbrev RecvMap := List (Int × List Byte)

namespace RecvMap

/-- Library function `std::map::find`: the buffer stored under `fd`, `none` for
`end()`. -/
def find : RecvMap → Int → Option (List Byte)
  | [], _ => none
  | (k, b) :: rest, fd => if k = fd then some b else find rest fd

/-- Store `b` under `fd`: assign to the element with that key, or insert a new element
at its place in key order. -/
def set : RecvMap → Int → List Byte → RecvMap
  | [], fd, b => [(fd, b)]
  | (k, b0) :: rest, fd, b =>
    if k = fd then (fd, b) :: rest
    else if fd < k then (fd, b) :: (k, b0) :: rest
    else (k, b0) :: set rest fd b

/-- Library function `std::map::operator[]`: the map afterwards (an empty buffer is
inserted when the key is absent) and the buffer the returned reference denotes. -/
def index (m : RecvMap) (fd : Int) : RecvMap × List Byte :=
  match find m fd with
  | some b => (m, b)
  | none => (set m fd [], [])

/-- Library function `std::map::erase(key)`: remove the element with key `fd`. -/
def erase (m : RecvMap) (fd : Int) : RecvMap :=
  m.filter (fun pair => pair.1 ≠ fd)

end RecvMap

/-- State of an `EpollServer` as the event-loop thread sees it, with the environment
that answers the thread and the trace of its operations. -/
structure EpollServer where
  /-- Member `m_listen_fd`. -/
  m_listen_fd : Int
  /-- Member `m_running`. -/
  m_running : Bool
  /-- Member `m_recv_buffers`. -/
  m_recv_buffers : RecvMap
  /-- Member `m_send_queue`. -/
  m_send_queue : MessageQueue
  /-- Member `m_protocol`. -/
  m_protocol : TLVProtocol
  /-- Whether `m_on_connect` holds a callback. -/
  m_on_connect : Bool
  /-- Whether `m_on_disconnect` holds a callback. -/
  m_on_disconnect : Bool
  /-- Whether `m_on_message` holds a callback. -/
  m_on_message : Bool
  /-- Byte order of the machine the server runs on. -/
  host : ByteOrder
  /-- Results of the coming `read` calls. -/
  reads : List ReadResult
  /-- Results of the coming `write` calls. -/
  writes : List WriteResult
  /-- Results of the coming `accept` calls. -/
  accepts : List AcceptResult
  /-- What the coming callback invocations do. -/
  callbacks : List (List SendCall)
  /-- Operations performed so far, oldest first. -/
  trace : List Op
  deriving DecidableEq, Repr

namespace EpollServer

/-- Constructor `EpollServer::EpollServer` on a `host`-ordered machine: not running, no
connection, no callback, a default-constructed codec. -/
def new (host : ByteOrder) : EpollServer :=
  { m_listen_fd := -1, m_running := false, m_recv_buffers := [],
    m_send_queue := MessageQueue.new, m_protocol := TLVProtocol.new host,
    m_on_connect := false, m_on_disconnect := false, m_on_message := false,
    host := host, reads := [], writes := [], accepts := [], callbacks := [], trace := [] }

/-- Append an operation to the trace. -/
def record (s : EpollServer) (op : Op) : EpollServer :=
  { s with trace := s.trace ++ [op] }

/-- Function `EpollServer::SendMessage(client_fd, data, len)`. Result: the returned flag
and the state afterwards. -/
def SendMessage (s : EpollServer) (client_fd : Int) (data : Option (List Byte))
    (len : Nat) : Bool × EpollServer :=
  if !s.m_running || decide (client_fd < 0) then (false, s)
  else
    let (ok, q) := s.m_send_queue.Push client_fd data len
    (ok, { s with m_send_queue := q })

/-- Invocation of a registered callback: the invocation is recorded, then the callback
body runs, making the `SendMessage` calls the environment scripts for it. -/
def invoke (s : EpollServer) (op : Op) : EpollServer :=
  let s := s.record op
  match s.callbacks with
  | [] => s
  | body :: rest =>
    body.foldl (fun acc c => (acc.SendMessage c.client_fd c.data c.len).2)
      { s with callbacks := rest }

/-- Function `EpollServer::ModifyEpoll(fd, events)`; callers ignore its result. -/
def ModifyEpoll (s : EpollServer) (fd : Int) (events : Nat) : EpollServer :=
  s.record (Op.epoll_ctl_mod fd events)

/-- Function `EpollServer::RemoveFromEpoll(fd)`; callers ignore its result. -/
def RemoveFromEpoll (s : EpollServer) (fd : Int) : EpollServer :=
  s.record (Op.epoll_ctl_del fd)

/-- Function `EpollServer::CloseConnection(fd)`. -/
def CloseConnection (s : EpollServer) (fd : Int) : EpollServer :=
  let s := s.RemoveFromEpoll fd
  let s := s.record (Op.close fd)
  let s := s.record Op.lock_recv
  let s := { s with m_recv_buffers := s.m_recv_buffers.erase fd }
  let s := s.record (Op.recv_erase fd)
  let s := s.record Op.unlock_recv
  let s := { s with m_send_queue := s.m_send_queue.Clear fd }
  let s := s.record (Op.queue_clear fd)
  if s.m_on_disconnect then s.invoke (Op.on_disconnect fd) else s

/-- Function `EpollServer::AcceptConnection()`: the loop over the pending connections,
as a recursion on the script of `accept` results. -/
def AcceptConnection.loop : List AcceptResult → EpollServer → EpollServer
  | [], s =>
    if s.m_running then s.record (Op.accept s.m_listen_fd AcceptResult.wouldBlock) else s
  | r :: rest, s =>
    if !s.m_running then s
    else
      let s := { s with accepts := rest }
      let s := s.record (Op.accept s.m_listen_fd r)
      match r with
      | AcceptResult.wouldBlock => s
      | AcceptResult.error => s
      | AcceptResult.conn client_fd nonblocking_ok add_ok =>
        let s := s.record (Op.set_nonblocking client_fd)
        if !nonblocking_ok then
          AcceptConnection.loop rest (s.record (Op.close client_fd))
        else
          let s := s.record (Op.epoll_ctl_add client_fd (EPOLLIN ||| EPOLLET))
          if !add_ok then
            AcceptConnection.loop rest (s.record (Op.close client_fd))
          else
            let s := s.record Op.lock_recv
            let s := { s with m_recv_buffers := s.m_recv_buffers.set client_fd [] }
            let s := s.record Op.unlock_recv
            let s := if s.m_on_connect then s.invoke (Op.on_connect client_fd) else s
            AcceptConnection.loop rest s

/-- Function `EpollServer::AcceptConnection()`. -/
def AcceptConnection (s : EpollServer) : EpollServer :=
  AcceptConnection.loop s.accepts s

/-- The message loop of `HandleRead` (`while (true)`): parse the front of the receive
buffer; on success invoke the message callback and erase the consumed bytes, and repeat;
on failure leave the loop. Result: the receive buffer and the state after the loop. -/
def HandleRead.parseLoop (fd : Int) (recv_buffer : List Byte) (s : EpollServer) :
    List Byte × EpollServer :=
  match _hparse : TLVProtocol.ParseMessage s.host s.m_protocol recv_buffer TLVMessage.default with
  | (true, msg, consumed) =>
    let s := if s.m_on_message then s.invoke (Op.on_message fd msg) else s
    HandleRead.parseLoop fd (recv_buffer.drop consumed) s
  | (false, _, _) => (recv_buffer, s)
termination_by recv_buffer.length
decreasing_by
  have hval : ∀ bs : List Byte, valueLE bs < 256 ^ bs.length := by
    intro bs
    induction bs with
    | nil => simp [valueLE]
    | cons b bs ih =>
      have hb := b.isLt
      simp only [valueLE, List.length_cons, Nat.pow_succ]
      omega
  have hobj : ∀ (host : ByteOrder) (bs : List Byte), bs.length ≤ 4 →
      objectValue host bs < 2 ^ 32 := by
    intro host bs hbs
    have hpow : ∀ n : Nat, n ≤ 4 → 256 ^ n ≤ 2 ^ 32 := by
      intro n hn
      calc 256 ^ n ≤ 256 ^ 4 := Nat.pow_le_pow_right (by decide) hn
        _ = 2 ^ 32 := by decide
    unfold objectValue
    cases host
    · exact Nat.lt_of_lt_of_le (hval bs) (hpow _ hbs)
    · have hr := hval bs.reverse
      rw [List.length_reverse] at hr
      exact Nat.lt_of_lt_of_le hr (hpow _ hbs)
  have hconv : ∀ (c : ByteConverter) (v : Nat), v < 2 ^ 32 → c.Convert32 v < 2 ^ 32 := by
    intro c v hv
    unfold ByteConverter.Convert32
    split
    · exact hv
    · exact Nat.mod_lt _ (by decide)
  have hgen : ∀ (host : ByteOrder) (p : TLVProtocol) (m : TLVMessage) (c : Nat),
      TLVProtocol.ParseMessage host p recv_buffer TLVMessage.default = (true, m, c) →
      (recv_buffer.drop c).length < recv_buffer.length := by
    intro host p m c hp
    have hl := hconv p.m_converter _ (hobj host ((recv_buffer.drop 2).take 4)
      (by rw [List.length_take]; exact Nat.min_le_left _ _))
    unfold TLVProtocol.ParseMessage at hp
    simp only [TLVProtocol.TLV_HEADER_SIZE, size_t] at hp
    split at hp
    · cases hp
    · split at hp
      · cases hp
      · simp only [Prod.mk.injEq, true_and] at hp
        obtain ⟨_, hc⟩ := hp
        rw [List.length_drop]
        omega
  exact hgen _ _ _ _ _hparse

/-- The step of `HandleRead` for one chunk read from the socket: under `m_recv_mutex`,
append the chunk to the receive buffer of `fd` and run the message loop. -/
def HandleRead.onData (s : EpollServer) (fd : Int) (chunk : List Byte) : EpollServer :=
  let s := s.record Op.lock_recv
  let (m, recv_buffer) := s.m_recv_buffers.index fd
  let s := { s with m_recv_buffers := m }
  let recv_buffer := recv_buffer ++ chunk
  let (recv_buffer, s) := HandleRead.parseLoop fd recv_buffer s
  let s := { s with m_recv_buffers := s.m_recv_buffers.set fd recv_buffer }
  s.record Op.unlock_recv

/-- The read loop of `HandleRead` (`while (m_running)`), as a recursion on the script of
`read` results. -/
def HandleRead.loop (fd : Int) : List ReadResult → EpollServer → EpollServer
  | [], s =>
    if s.m_running then s.record (Op.read fd ReadResult.wouldBlock) else s
  | r :: rest, s =>
    if !s.m_running then s
    else
      let s := { s with reads := rest }
      let s := s.record (Op.read fd r)
      match r with
      | ReadResult.wouldBlock => s
      | ReadResult.error => s.CloseConnection fd
      | ReadResult.bytes chunk =>
        if chunk.length = 0 then s.CloseConnection fd
        else HandleRead.loop fd rest (HandleRead.onData s fd chunk)

/-- Function `EpollServer::HandleRead(fd)`. -/
def HandleRead (s : EpollServer) (fd : Int) : EpollServer :=
  HandleRead.loop fd s.reads s

/-- The send loop of `HandleWrite` (`while (total_sent < data.size())`) together with
the statements that follow it, as a recursion on the script of `write` results. -/
def HandleWrite.sendLoop (fd : Int) (data : List Byte) (script : List WriteResult)
    (total_sent : Nat) (s : EpollServer) : EpollServer :=
  if total_sent < data.length then
    match script with
    | [] =>
      let s := s.record (Op.write fd (data.drop total_sent) WriteResult.wouldBlock)
      let remaining := data.drop total_sent
      let s := { s with m_send_queue :=
        (s.m_send_queue.PushFront fd (some remaining) remaining.length).2 }
      s.ModifyEpoll fd (EPOLLIN ||| EPOLLOUT ||| EPOLLET)
    | r :: rest =>
      let s := { s with writes := rest }
      let s := s.record (Op.write fd (data.drop total_sent) r)
      match r with
      | WriteResult.wouldBlock =>
        let remaining := data.drop total_sent
        let s := { s with m_send_queue :=
          (s.m_send_queue.PushFront fd (some remaining) remaining.length).2 }
        s.ModifyEpoll fd (EPOLLIN ||| EPOLLOUT ||| EPOLLET)
      | WriteResult.error => s.CloseConnection fd
      | WriteResult.accepted sent =>
        HandleWrite.sendLoop fd data rest (size_t (total_sent + sent)) s
  else if s.m_send_queue.HasMessages fd then
    s.ModifyEpoll fd (EPOLLIN ||| EPOLLOUT ||| EPOLLET)
  else
    s.ModifyEpoll fd (EPOLLIN ||| EPOLLET)

/-- Function `EpollServer::HandleWrite(fd)`. -/
def HandleWrite (s : EpollServer) (fd : Int) : EpollServer :=
  if s.m_send_queue.HasMessages fd then
    match s.m_send_queue.GetMessages fd [] with
    | (true, q, data) =>
      HandleWrite.sendLoop fd data s.writes 0 { s with m_send_queue := q }
    | (false, q, _) => { s with m_send_queue := q }
  else
    s.ModifyEpoll fd (EPOLLIN ||| EPOLLET)

/-- The body of the `for` loop of `EpollServer::EpollLoop()` for one ready event
`(fd, events)`. -/
def EpollLoop.handleEvent (s : EpollServer) (fd : Int) (events : Nat) : EpollServer :=
  if events &&& (EPOLLERR ||| EPOLLHUP) ≠ 0 then
    s.CloseConnection fd
  else if fd = s.m_listen_fd ∧ events &&& EPOLLIN ≠ 0 then
    s.AcceptConnection
  else
    let s := if events &&& EPOLLIN ≠ 0 then s.HandleRead fd else s
    let s := if events &&& EPOLLOUT ≠ 0 then s.HandleWrite fd else s
    s

/-- The messages handed to the message callback in a trace, oldest first. -/
def delivered : List Op → List (Int × TLVMessage)
  | [] => []
  | Op.on_message fd msg :: rest => (fd, msg) :: delivered rest
  | _ :: rest => delivered rest

/-- The bytes the descriptor `fd` accepted in the `write` calls of a trace, in order. -/
def written (fd : Int) : List Op → List Byte
  | [] => []
  | Op.write fd' buf (WriteResult.accepted sent) :: rest =>
    if fd' = fd then buf.take sent ++ written fd rest else written fd rest
  | _ :: rest => written fd rest

/-- The bytes `SerializeMessage` of a default-constructed codec on a `host`-ordered
machine produces for `msg` (empty when it does not return). -/
def encode (host : ByteOrder) (msg : TLVMessage) : List Byte :=
  match TLVProtocol.SerializeMessage host (TLVProtocol.new host) msg [] with
  | some (_, output) => output
  | none => []

end EpollServer

/-- A message as the claims take it: a 16-bit type, a 32-bit length and a value of
exactly `length` bytes. -/
def TLVMessage.WellFormed (m : TLVMessage) : Prop :=
  m.type < 2 ^ 16 ∧ m.length < 2 ^ 32 ∧ m.value.length = m.length

instance (m : TLVMessage) : Decidable m.WellFormed := by
  unfold TLVMessage.WellFormed
  infer_instance

/-- The receive buffer of `fd` (empty when the map has no element for it). -/
def EpollServer.bufferOf (s : EpollServer) (fd : Int) : List Byte :=
  (RecvMap.find s.m_recv_buffers fd).getD []

/-! ## Sample states -/

/-- A running server on a little-endian machine with one connection, handle 5, that has
a registered disconnect callback, an empty receive buffer and one queued payload. -/
def EpollServer.sample_connected : EpollServer :=
  { m_listen_fd := 3, m_running := true, m_recv_buffers := [(5, [])],
    m_send_queue := { m_queues := [(5, [{ data := [1, 2] }])] },
    m_protocol := TLVProtocol.new ByteOrder.LittleEndian,
    m_on_connect := true, m_on_disconnect := true, m_on_message := true,
    host := ByteOrder.LittleEndian, reads := [], writes := [], accepts := [],
    callbacks := [], trace := [] }

/-- The state `sample_connected` when the next `read` reports the end of the stream. -/
def EpollServer.sample_peer_closed : EpollServer :=
  { EpollServer.sample_connected with reads := [ReadResult.bytes []] }

/-- The state `sample_connected` when the next `read` delivers the frame of the message
of type 1 with value "hello" and the one after it would block. -/
def EpollServer.sample_frame_arrives : EpollServer :=
  { EpollServer.sample_connected with
    reads := [ReadResult.bytes [0, 1, 0, 0, 0, 5, 104, 101, 108, 108, 111],
      ReadResult.wouldBlock] }

/-! ## Theorems: byte-order converter -/

namespace ByteConverter

/-- Masking with a byte mask shifted left by `k` bits selects the byte at bit `k`. -/
theorem and_shifted_mask (x k : Nat) :
    x &&& (255 <<< k) = (x / 2 ^ k % 256) * 2 ^ k := by
  apply Nat.eq_of_testBit_eq
  intro i
  rw [← Nat.shiftLeft_eq, ← Nat.shiftRight_eq_div_pow]
  have h255 : (255 : Nat) = 2 ^ 8 - 1 := by norm_num
  have h256 : (256 : Nat) = 2 ^ 8 := by norm_num
  rw [h255, h256]
  simp only [Nat.testBit_and, Nat.testBit_shiftLeft, Nat.testBit_two_pow_sub_one,
    Nat.testBit_mod_two_pow, Nat.testBit_shiftRight]
  by_cases h : k ≤ i
  · have hk : k + (i - k) = i := by omega
    simp [h, hk, Bool.and_comm]
  · simp [h]

/-- Bitwise or of a multiple of `2 ^ k` and a number below `2 ^ k` is their sum. -/
theorem or_eq_add (a b k : Nat) (ha : a % 2 ^ k = 0) (hb : b < 2 ^ k) :
    a ||| b = a + b := by
  obtain ⟨c, hc⟩ := Nat.dvd_of_mod_eq_zero ha
  subst hc
  exact (Nat.mul_add_lt_is_or hb c).symm

/-- Two bytes placed at distinct byte positions combine by addition. -/
theorem or_bytes2 (b0 b1 : Nat) (_h0 : b0 < 256) (h1 : b1 < 256) :
    b0 * 256 ||| b1 = b0 * 256 + b1 :=
  or_eq_add _ _ 8 (by omega) (by omega)

/-- Four bytes placed at distinct byte positions combine by addition. -/
theorem or_bytes4 (b0 b1 b2 b3 : Nat) (_h0 : b0 < 256) (h1 : b1 < 256) (h2 : b2 < 256)
    (h3 : b3 < 256) :
    b0 * 16777216 ||| b1 * 65536 ||| b2 * 256 ||| b3
      = b0 * 16777216 + b1 * 65536 + b2 * 256 + b3 := by
  have o1 : b0 * 16777216 ||| b1 * 65536 = b0 * 16777216 + b1 * 65536 :=
    or_eq_add _ _ 24 (by omega) (by omega)
  have o2 : (b0 * 16777216 + b1 * 65536) ||| b2 * 256
      = b0 * 16777216 + b1 * 65536 + b2 * 256 :=
    or_eq_add _ _ 16 (by omega) (by omega)
  have o3 : (b0 * 16777216 + b1 * 65536 + b2 * 256) ||| b3
      = b0 * 16777216 + b1 * 65536 + b2 * 256 + b3 :=
    or_eq_add _ _ 8 (by omega) (by omega)
  rw [o1, o2, o3]

/-- Eight bytes placed at distinct byte positions combine by addition. -/
theorem or_bytes8 (b0 b1 b2 b3 b4 b5 b6 b7 : Nat) (_h0 : b0 < 256) (h1 : b1 < 256)
    (h2 : b2 < 256) (h3 : b3 < 256) (h4 : b4 < 256) (h5 : b5 < 256) (h6 : b6 < 256)
    (h7 : b7 < 256) :
    b0 * 72057594037927936 ||| b1 * 281474976710656 ||| b2 * 1099511627776
        ||| b3 * 4294967296 ||| b4 * 16777216 ||| b5 * 65536 ||| b6 * 256 ||| b7
      = b0 * 72057594037927936 + b1 * 281474976710656 + b2 * 1099511627776
        + b3 * 4294967296 + b4 * 16777216 + b5 * 65536 + b6 * 256 + b7 := by
  have o1 : b0 * 72057594037927936 ||| b1 * 281474976710656
      = b0 * 72057594037927936 + b1 * 281474976710656 :=
    or_eq_add _ _ 56 (by omega) (by omega)
  have o2 : (b0 * 72057594037927936 + b1 * 281474976710656) ||| b2 * 1099511627776
      = b0 * 72057594037927936 + b1 * 281474976710656 + b2 * 1099511627776 :=
    or_eq_add _ _ 48 (by omega) (by omega)
  have o3 : (b0 * 72057594037927936 + b1 * 281474976710656 + b2 * 1099511627776)
        ||| b3 * 4294967296
      = b0 * 72057594037927936 + b1 * 281474976710656 + b2 * 1099511627776
        + b3 * 4294967296 :=
    or_eq_add _ _ 40 (by omega) (by omega)
  have o4 : (b0 * 72057594037927936 + b1 * 281474976710656 + b2 * 1099511627776
        + b3 * 4294967296) ||| b4 * 16777216
      = b0 * 72057594037927936 + b1 * 281474976710656 + b2 * 1099511627776
        + b3 * 4294967296 + b4 * 16777216 :=
    or_eq_add _ _ 32 (by omega) (by omega)
  have o5 : (b0 * 72057594037927936 + b1 * 281474976710656 + b2 * 1099511627776
        + b3 * 4294967296 + b4 * 16777216) ||| b5 * 65536
      = b0 * 72057594037927936 + b1 * 281474976710656 + b2 * 1099511627776
        + b3 * 4294967296 + b4 * 16777216 + b5 * 65536 :=
    or_eq_add _ _ 24 (by omega) (by omega)
  have o6 : (b0 * 72057594037927936 + b1 * 281474976710656 + b2 * 1099511627776
        + b3 * 4294967296 + b4 * 16777216 + b5 * 65536) ||| b6 * 256
      = b0 * 72057594037927936 + b1 * 281474976710656 + b2 * 1099511627776
        + b3 * 4294967296 + b4 * 16777216 + b5 * 65536 + b6 * 256 :=
    or_eq_add _ _ 16 (by omega) (by omega)
  have o7 : (b0 * 72057594037927936 + b1 * 281474976710656 + b2 * 1099511627776
        + b3 * 4294967296 + b4 * 16777216 + b5 * 65536 + b6 * 256) ||| b7
      = b0 * 72057594037927936 + b1 * 281474976710656 + b2 * 1099511627776
        + b3 * 4294967296 + b4 * 16777216 + b5 * 65536 + b6 * 256 + b7 :=
    or_eq_add _ _ 8 (by omega) (by omega)
  rw [o1, o2, o3, o4, o5, o6, o7]

/-- The mask `0xFF << k` applied to `x`, for a literal bit position. -/
theorem and_mask_lit (x k m p : Nat) (hm : m = 255 <<< k) (hp : p = 2 ^ k) :
    x &&& m = x / p % 256 * p := by
  subst hm hp
  exact and_shifted_mask x k

/-- Arithmetic form of `Swap16`. -/
theorem Swap16_eq (x : Nat) :
    Swap16 x = x % 256 * 256 + x / 256 % 256 := by
  unfold Swap16
  rw [and_mask_lit x 0 0x00FF 1 (by decide) (by decide),
    and_mask_lit x 8 0xFF00 256 (by decide) (by decide)]
  simp only [Nat.shiftLeft_eq, Nat.shiftRight_eq_div_pow]
  have s0 : x / 1 % 256 * 1 * 2 ^ 8 = x % 256 * 256 := by omega
  have s1 : x / 256 % 256 * 256 / 2 ^ 8 = x / 256 % 256 := by omega
  rw [s0, s1, or_bytes2 _ _ (by omega) (by omega)]
  omega

/-- Arithmetic form of `Swap32`. -/
theorem Swap32_eq (x : Nat) :
    Swap32 x = x % 256 * 16777216 + x / 256 % 256 * 65536
      + x / 65536 % 256 * 256 + x / 16777216 % 256 := by
  unfold Swap32
  rw [and_mask_lit x 0 0x000000FF 1 (by decide) (by decide),
    and_mask_lit x 8 0x0000FF00 256 (by decide) (by decide),
    and_mask_lit x 16 0x00FF0000 65536 (by decide) (by decide),
    and_mask_lit x 24 0xFF000000 16777216 (by decide) (by decide)]
  simp only [Nat.shiftLeft_eq, Nat.shiftRight_eq_div_pow]
  have s0 : x / 1 % 256 * 1 * 2 ^ 24 % 2 ^ 32 = x % 256 * 16777216 := by omega
  have s1 : x / 256 % 256 * 256 * 2 ^ 8 % 2 ^ 32 = x / 256 % 256 * 65536 := by omega
  have s2 : x / 65536 % 256 * 65536 / 2 ^ 8 = x / 65536 % 256 * 256 := by omega
  have s3 : x / 16777216 % 256 * 16777216 / 2 ^ 24 = x / 16777216 % 256 := by omega
  rw [s0, s1, s2, s3, or_bytes4 _ _ _ _ (by omega) (by omega) (by omega) (by omega)]
  omega

/-- Arithmetic form of `Swap64`. -/
theorem Swap64_eq (x : Nat) :
    Swap64 x = x % 256 * 72057594037927936 + x / 256 % 256 * 281474976710656
      + x / 65536 % 256 * 1099511627776 + x / 16777216 % 256 * 4294967296
      + x / 4294967296 % 256 * 16777216 + x / 1099511627776 % 256 * 65536
      + x / 281474976710656 % 256 * 256 + x / 72057594037927936 % 256 := by
  unfold Swap64
  rw [and_mask_lit x 0 0x00000000000000FF 1 (by decide) (by decide),
    and_mask_lit x 8 0x000000000000FF00 256 (by decide) (by decide),
    and_mask_lit x 16 0x0000000000FF0000 65536 (by decide) (by decide),
    and_mask_lit x 24 0x00000000FF000000 16777216 (by decide) (by decide),
    and_mask_lit x 32 0x000000FF00000000 4294967296 (by decide) (by decide),
    and_mask_lit x 40 0x0000FF0000000000 1099511627776 (by decide) (by decide),
    and_mask_lit x 48 0x00FF000000000000 281474976710656 (by decide) (by decide),
    and_mask_lit x 56 0xFF00000000000000 72057594037927936 (by decide) (by decide)]
  simp only [Nat.shiftLeft_eq, Nat.shiftRight_eq_div_pow]
  have s0 : x / 1 % 256 * 1 * 2 ^ 56 % 2 ^ 64 = x % 256 * 72057594037927936 := by omega
  have s1 : x / 256 % 256 * 256 * 2 ^ 40 % 2 ^ 64
      = x / 256 % 256 * 281474976710656 := by omega
  have s2 : x / 65536 % 256 * 65536 * 2 ^ 24 % 2 ^ 64
      = x / 65536 % 256 * 1099511627776 := by omega
  have s3 : x / 16777216 % 256 * 16777216 * 2 ^ 8 % 2 ^ 64
      = x / 16777216 % 256 * 4294967296 := by omega
  have s4 : x / 4294967296 % 256 * 4294967296 / 2 ^ 8
      = x / 4294967296 % 256 * 16777216 := by omega
  have s5 : x / 1099511627776 % 256 * 1099511627776 / 2 ^ 24
      = x / 1099511627776 % 256 * 65536 := by omega
  have s6 : x / 281474976710656 % 256 * 281474976710656 / 2 ^ 40
      = x / 281474976710656 % 256 * 256 := by omega
  have s7 : x / 72057594037927936 % 256 * 72057594037927936 / 2 ^ 56
      = x / 72057594037927936 % 256 := by omega
  rw [s0, s1, s2, s3, s4, s5, s6, s7,
    or_bytes8 _ _ _ _ _ _ _ _ (by omega) (by omega) (by omega) (by omega) (by omega)
      (by omega) (by omega) (by omega)]
  omega

end ByteConverter

namespace ByteConverter

/-- The probe of `GetHostByteOrder` reports the byte order of the machine. -/
theorem GetHostByteOrder_eq (host : ByteOrder) : GetHostByteOrder host = host := by
  cases host <;> decide

theorem Swap16_lt (x : Nat) : Swap16 x < 2 ^ 16 := Nat.mod_lt _ (by norm_num)

theorem Swap32_lt (x : Nat) : Swap32 x < 2 ^ 32 := Nat.mod_lt _ (by norm_num)

theorem Swap64_lt (x : Nat) : Swap64 x < 2 ^ 64 := Nat.mod_lt _ (by norm_num)

/-- The bytes of `Swap16 x` are the bytes of `x` in reverse order. -/
theorem Swap16_bytes (x : Nat) :
    Swap16 x % 256 = x / 256 % 256 ∧ Swap16 x / 256 % 256 = x % 256 := by
  have hs := Swap16_eq x
  generalize Swap16 x = s at hs
  have h0 : x % 256 < 256 := Nat.mod_lt _ (by norm_num)
  have h1 : x / 256 % 256 < 256 := Nat.mod_lt _ (by norm_num)
  generalize x % 256 = b0 at *
  generalize x / 256 % 256 = b1 at *
  constructor <;> omega

/-- The bytes of `Swap32 x` are the bytes of `x` in reverse order. -/
theorem Swap32_bytes (x : Nat) :
    Swap32 x % 256 = x / 16777216 % 256 ∧ Swap32 x / 256 % 256 = x / 65536 % 256
    ∧ Swap32 x / 65536 % 256 = x / 256 % 256 ∧ Swap32 x / 16777216 % 256 = x % 256 := by
  have hs := Swap32_eq x
  generalize Swap32 x = s at hs
  have h0 : x % 256 < 256 := Nat.mod_lt _ (by norm_num)
  have h1 : x / 256 % 256 < 256 := Nat.mod_lt _ (by norm_num)
  have h2 : x / 65536 % 256 < 256 := Nat.mod_lt _ (by norm_num)
  have h3 : x / 16777216 % 256 < 256 := Nat.mod_lt _ (by norm_num)
  generalize x % 256 = b0 at *
  generalize x / 256 % 256 = b1 at *
  generalize x / 65536 % 256 = b2 at *
  generalize x / 16777216 % 256 = b3 at *
  refine ⟨?_, ?_, ?_, ?_⟩ <;> omega

/-- The bytes of `Swap64 x` are the bytes of `x` in reverse order. -/
theorem Swap64_bytes (x : Nat) :
    Swap64 x % 256 = x / 72057594037927936 % 256
    ∧ Swap64 x / 256 % 256 = x / 281474976710656 % 256
    ∧ Swap64 x / 65536 % 256 = x / 1099511627776 % 256
    ∧ Swap64 x / 16777216 % 256 = x / 4294967296 % 256
    ∧ Swap64 x / 4294967296 % 256 = x / 16777216 % 256
    ∧ Swap64 x / 1099511627776 % 256 = x / 65536 % 256
    ∧ Swap64 x / 281474976710656 % 256 = x / 256 % 256
    ∧ Swap64 x / 72057594037927936 % 256 = x % 256 := by
  have hs := Swap64_eq x
  generalize Swap64 x = s at hs
  have h0 : x % 256 < 256 := Nat.mod_lt _ (by norm_num)
  have h1 : x / 256 % 256 < 256 := Nat.mod_lt _ (by norm_num)
  have h2 : x / 65536 % 256 < 256 := Nat.mod_lt _ (by norm_num)
  have h3 : x / 16777216 % 256 < 256 := Nat.mod_lt _ (by norm_num)
  have h4 : x / 4294967296 % 256 < 256 := Nat.mod_lt _ (by norm_num)
  have h5 : x / 1099511627776 % 256 < 256 := Nat.mod_lt _ (by norm_num)
  have h6 : x / 281474976710656 % 256 < 256 := Nat.mod_lt _ (by norm_num)
  have h7 : x / 72057594037927936 % 256 < 256 := Nat.mod_lt _ (by norm_num)
  generalize x % 256 = b0 at *
  generalize x / 256 % 256 = b1 at *
  generalize x / 65536 % 256 = b2 at *
  generalize x / 16777216 % 256 = b3 at *
  generalize x / 4294967296 % 256 = b4 at *
  generalize x / 1099511627776 % 256 = b5 at *
  generalize x / 281474976710656 % 256 = b6 at *
  generalize x / 72057594037927936 % 256 = b7 at *
  refine ⟨?_, ?_, ?_, ?_, ?_, ?_, ?_, ?_⟩ <;> omega

theorem Swap16_Swap16 (x : Nat) (hx : x < 2 ^ 16) : Swap16 (Swap16 x) = x := by
  obtain ⟨e0, e1⟩ := Swap16_bytes x
  rw [Swap16_eq (Swap16 x), e0, e1]
  omega

theorem Swap32_Swap32 (x : Nat) (hx : x < 2 ^ 32) : Swap32 (Swap32 x) = x := by
  obtain ⟨e0, e1, e2, e3⟩ := Swap32_bytes x
  rw [Swap32_eq (Swap32 x), e0, e1, e2, e3]
  omega

theorem Swap64_Swap64 (x : Nat) (hx : x < 2 ^ 64) : Swap64 (Swap64 x) = x := by
  obtain ⟨e0, e1, e2, e3, e4, e5, e6, e7⟩ := Swap64_bytes x
  rw [Swap64_eq (Swap64 x), e0, e1, e2, e3, e4, e5, e6, e7]
  omega

theorem Swap16_byteAt (x k : Nat) (hk : k < 2) :
    byteAt (Swap16 x) k = byteAt x (1 - k) := by
  obtain ⟨e0, e1⟩ := Swap16_bytes x
  unfold byteAt
  interval_cases k <;> norm_num <;> assumption

theorem Swap32_byteAt (x k : Nat) (hk : k < 4) :
    byteAt (Swap32 x) k = byteAt x (3 - k) := by
  obtain ⟨e0, e1, e2, e3⟩ := Swap32_bytes x
  unfold byteAt
  interval_cases k <;> norm_num <;> assumption

theorem Swap64_byteAt (x k : Nat) (hk : k < 8) :
    byteAt (Swap64 x) k = byteAt x (7 - k) := by
  obtain ⟨e0, e1, e2, e3, e4, e5, e6, e7⟩ := Swap64_bytes x
  unfold byteAt
  interval_cases k <;> norm_num <;> assumption

end ByteConverter

/-! ## Theorems: memory representation -/

theorem toByte_val (n : Nat) : (toByte n).val = n % 256 := rfl

theorem toByte_of_val (b : Byte) : toByte b.val = b := by
  apply Fin.ext
  simp [toByte, Nat.mod_eq_of_lt b.isLt]

theorem bytesLE_length (w v : Nat) : (bytesLE w v).length = w := by
  induction w generalizing v with
  | zero => rfl
  | succ n ih => simp [bytesLE, ih]

theorem valueLE_bytesLE (w v : Nat) : valueLE (bytesLE w v) = v % 256 ^ w := by
  induction w generalizing v with
  | zero => simp [bytesLE, valueLE, Nat.mod_one]
  | succ n ih =>
    simp only [bytesLE, valueLE, ih, toByte_val]
    rw [pow_succ, Nat.mul_comm (256 ^ n) 256, Nat.mod_mul]

theorem valueLE_lt (bs : List Byte) : valueLE bs < 256 ^ bs.length := by
  induction bs with
  | nil => simp [valueLE]
  | cons b bs ih =>
    simp only [valueLE, List.length_cons, pow_succ]
    have hb := b.isLt
    omega

theorem bytesLE_valueLE (bs : List Byte) : bytesLE bs.length (valueLE bs) = bs := by
  induction bs with
  | nil => rfl
  | cons b bs ih =>
    have hb := b.isLt
    have h1 : (b.val + 256 * valueLE bs) / 256 = valueLE bs := by omega
    have h2 : toByte (b.val + 256 * valueLE bs) = b := by
      apply Fin.ext
      simp only [toByte_val]
      omega
    simp only [List.length_cons, bytesLE, valueLE, h1, h2, ih]

theorem objectBytes_length (host : ByteOrder) (w v : Nat) :
    (objectBytes host w v).length = w := by
  cases host <;> simp [objectBytes, bytesLE_length]

theorem wireBytes_length (order : ByteOrder) (w v : Nat) :
    (wireBytes order w v).length = w := by
  cases order <;> simp [wireBytes, bytesLE_length]

theorem wireValue_lt (order : ByteOrder) (bs : List Byte) :
    wireValue order bs < 256 ^ bs.length := by
  cases order
  · exact valueLE_lt bs
  · simpa [wireValue] using valueLE_lt bs.reverse

theorem wireValue_wireBytes (order : ByteOrder) (w v : Nat) (hv : v < 256 ^ w) :
    wireValue order (wireBytes order w v) = v := by
  cases order <;>
    simp [wireValue, wireBytes, valueLE_bytesLE, Nat.mod_eq_of_lt hv]

theorem wireBytes_wireValue (order : ByteOrder) (bs : List Byte) :
    wireBytes order bs.length (wireValue order bs) = bs := by
  cases order
  · exact bytesLE_valueLE bs
  · have h := bytesLE_valueLE bs.reverse
    simp only [List.length_reverse] at h
    simp [wireValue, wireBytes, h]

/-- A list of two elements. -/
theorem list_eq_two {α : Type} (l : List α) (h : l.length = 2) :
    ∃ a b, l = [a, b] := by
  match l, h with
  | [a, b], _ => exact ⟨a, b, rfl⟩

/-- A list of four elements. -/
theorem list_eq_four {α : Type} (l : List α) (h : l.length = 4) :
    ∃ a b c d, l = [a, b, c, d] := by
  match l, h with
  | [a, b, c, d], _ => exact ⟨a, b, c, d, rfl⟩

/-- The two low-order bytes of a number. -/
theorem bytesLE_two (v : Nat) : bytesLE 2 v = [toByte v, toByte (v / 256)] := rfl

/-- The four low-order bytes of a number. -/
theorem bytesLE_four (v : Nat) :
    bytesLE 4 v = [toByte v, toByte (v / 256), toByte (v / 65536),
      toByte (v / 16777216)] := by
  simp [bytesLE, Nat.div_div_eq_div_mul]

/-- The bytes of a number given as a sum of four bytes. -/
theorem sum4_bytes (b0 b1 b2 b3 s : Nat) (h0 : b0 < 256) (h1 : b1 < 256) (h2 : b2 < 256)
    (h3 : b3 < 256) (hs : s = b0 + 256 * (b1 + 256 * (b2 + 256 * (b3 + 256 * 0)))) :
    s % 256 = b0 ∧ s / 256 % 256 = b1 ∧ s / 65536 % 256 = b2
    ∧ s / 16777216 % 256 = b3 := by
  refine ⟨?_, ?_, ?_, ?_⟩ <;> omega

namespace ByteConverter

/-- Byte-swapping a 16-bit value reverses the two bytes it is made of. -/
theorem Swap16_valueLE (bs : List Byte) (h : bs.length = 2) :
    Swap16 (valueLE bs) = valueLE bs.reverse := by
  obtain ⟨a, b, rfl⟩ := list_eq_two bs h
  have ha := a.isLt
  have hb := b.isLt
  rw [Swap16_eq]
  simp only [valueLE, List.reverse_cons, List.reverse_nil, List.nil_append,
    List.cons_append]
  omega

/-- Byte-swapping a 32-bit value reverses the four bytes it is made of. -/
theorem Swap32_valueLE (bs : List Byte) (h : bs.length = 4) :
    Swap32 (valueLE bs) = valueLE bs.reverse := by
  obtain ⟨a, b, c, d, rfl⟩ := list_eq_four bs h
  rw [Swap32_eq]
  simp only [valueLE, List.reverse_cons, List.reverse_nil, List.nil_append,
    List.cons_append]
  obtain ⟨e0, e1, e2, e3⟩ := sum4_bytes a.val b.val c.val d.val _ a.isLt b.isLt c.isLt
    d.isLt rfl
  rw [e0, e1, e2, e3]
  omega

/-- The object representation of a byte-swapped 16-bit value is the reversed one. -/
theorem bytesLE_Swap16 (v : Nat) : bytesLE 2 (Swap16 v) = (bytesLE 2 v).reverse := by
  obtain ⟨e0, e1⟩ := Swap16_bytes v
  simp only [bytesLE_two, List.reverse_cons, List.reverse_nil, List.nil_append,
    List.cons_append, List.cons.injEq, and_true]
  refine ⟨Fin.ext ?_, Fin.ext ?_⟩ <;> simp only [toByte_val] <;> omega

/-- The object representation of a byte-swapped 32-bit value is the reversed one. -/
theorem bytesLE_Swap32 (v : Nat) : bytesLE 4 (Swap32 v) = (bytesLE 4 v).reverse := by
  obtain ⟨e0, e1, e2, e3⟩ := Swap32_bytes v
  simp only [bytesLE_four, List.reverse_cons, List.reverse_nil, List.nil_append,
    List.cons_append, List.cons.injEq, and_true]
  refine ⟨Fin.ext ?_, Fin.ext ?_, Fin.ext ?_, Fin.ext ?_⟩ <;>
    simp only [toByte_val] <;> omega

end ByteConverter

/-! ## Theorems: TLV codec -/

namespace TLVProtocol

/-- The converter of a configured codec: target order as configured, host order as
probed. -/
theorem codec_converter (host order : ByteOrder) :
    (codec host order).m_converter = { m_byte_order := order, m_host_order := host } := by
  simp [codec, new, SetByteOrder, ByteConverter.new, ByteConverter.SetByteOrder,
    ByteConverter.GetHostByteOrder_eq]

/-- Loading a 16-bit header field and converting it reads the field in wire order. -/
theorem Convert16_objectValue (host order : ByteOrder) (bs : List Byte)
    (h : bs.length = 2) :
    (codec host order).m_converter.Convert16 (objectValue host bs) = wireValue order bs := by
  have hr : bs.reverse.length = 2 := by simpa using h
  have h1 := ByteConverter.Swap16_valueLE bs h
  have h2 := ByteConverter.Swap16_valueLE bs.reverse hr
  rw [List.reverse_reverse] at h2
  cases host <;> cases order <;>
    simp [ByteConverter.Convert16, codec_converter, objectValue, wireValue, h1, h2]

/-- Loading a 32-bit header field and converting it reads the field in wire order. -/
theorem Convert32_objectValue (host order : ByteOrder) (bs : List Byte)
    (h : bs.length = 4) :
    (codec host order).m_converter.Convert32 (objectValue host bs) = wireValue order bs := by
  have hr : bs.reverse.length = 4 := by simpa using h
  have h1 := ByteConverter.Swap32_valueLE bs h
  have h2 := ByteConverter.Swap32_valueLE bs.reverse hr
  rw [List.reverse_reverse] at h2
  cases host <;> cases order <;>
    simp [ByteConverter.Convert32, codec_converter, objectValue, wireValue, h1, h2]

/-- Converting a 16-bit header field and storing it writes the field in wire order. -/
theorem objectBytes_Convert16 (host order : ByteOrder) (v : Nat) :
    objectBytes host 2 ((codec host order).m_converter.Convert16 v)
      = wireBytes order 2 v := by
  have h1 := ByteConverter.bytesLE_Swap16 v
  cases host <;> cases order <;>
    simp [ByteConverter.Convert16, codec_converter, objectBytes, wireBytes, h1]

/-- Converting a 32-bit header field and storing it writes the field in wire order. -/
theorem objectBytes_Convert32 (host order : ByteOrder) (v : Nat) :
    objectBytes host 4 ((codec host order).m_converter.Convert32 v)
      = wireBytes order 4 v := by
  have h1 := ByteConverter.bytesLE_Swap32 v
  cases host <;> cases order <;>
    simp [ByteConverter.Convert32, codec_converter, objectBytes, wireBytes, h1]

/-- No sum of the header size and a 32-bit length leaves `size_t`. -/
theorem size_t_header_add (l : Nat) (hl : l < 2 ^ 32) :
    size_t (TLV_HEADER_SIZE + l) = 6 + l := by
  unfold size_t TLV_HEADER_SIZE
  apply Nat.mod_eq_of_lt
  omega

/-- What `ParseMessage` computes, with the header fields read in wire order. -/
theorem ParseMessage_eq (host order : ByteOrder) (data : List Byte) (msg : TLVMessage) :
    ParseMessage host (codec host order) data msg =
      if data.length < 6 then (false, msg, 0)
      else if data.length < 6 + wireValue order ((data.drop 2).take 4) then
        (false, { msg with
                  type := wireValue order (data.take 2),
                  length := wireValue order ((data.drop 2).take 4) }, 0)
      else
        (true, { type := wireValue order (data.take 2),
                 length := wireValue order ((data.drop 2).take 4),
                 value := (data.drop 6).take (wireValue order ((data.drop 2).take 4)) },
          6 + wireValue order ((data.drop 2).take 4)) := by
  unfold ParseMessage
  by_cases h6 : data.length < 6
  · simp [TLV_HEADER_SIZE, h6]
  · have l2 : (data.take 2).length = 2 := by simp; omega
    have l4 : ((data.drop 2).take 4).length = 4 := by simp; omega
    have hlt : wireValue order ((data.drop 2).take 4) < 2 ^ 32 := by
      have := wireValue_lt order ((data.drop 2).take 4)
      rw [l4] at this
      norm_num at this ⊢
      exact this
    simp only [TLV_HEADER_SIZE, h6, if_false, Convert16_objectValue host order _ l2,
      Convert32_objectValue host order _ l4]
    have hs := size_t_header_add _ hlt
    simp only [TLV_HEADER_SIZE] at hs
    simp only [hs]

theorem resize_length (v : List Byte) (n : Nat) : (resize v n).length = n := by
  simp [resize]
  omega

/-- Overwriting the middle part of a buffer. -/
theorem memcpy_append (A B C src : List Byte) (off : Nat) (hoff : off = A.length)
    (h : src.length = B.length) :
    memcpy (A ++ (B ++ C)) off src = some (A ++ (src ++ C)) := by
  subst hoff
  unfold memcpy
  have hle : A.length + src.length ≤ (A ++ (B ++ C)).length := by
    simp only [List.length_append]
    omega
  rw [if_pos hle, List.take_left, h, ← List.length_append, ← List.append_assoc A B C,
    List.drop_left, List.append_assoc]

/-- A buffer of `6 + n` bytes splits into parts of 2, 4 and `n` bytes. -/
theorem split_header (R : List Byte) (n : Nat) (h : R.length = 6 + n) :
    ∃ P2 P4 PV, R = P2 ++ (P4 ++ PV) ∧ P2.length = 2 ∧ P4.length = 4 ∧ PV.length = n := by
  refine ⟨R.take 2, (R.drop 2).take 4, R.drop 6, ?_, ?_, ?_, ?_⟩
  · have e : R.drop 6 = (R.drop 2).drop 4 := by rw [List.drop_drop]
    rw [e, List.take_append_drop, List.take_append_drop]
  · simp only [List.length_take]
    omega
  · simp only [List.length_take, List.length_drop]
    omega
  · simp only [List.length_drop]
    omega

/-- What `SerializeMessage` computes for a message whose value has at least the declared
number of bytes: header fields in wire order, then the first `length` value bytes. -/
theorem SerializeMessage_eq (host order : ByteOrder) (msg : TLVMessage)
    (output : List Byte) (hl : msg.length < 2 ^ 32) (hv : msg.length ≤ msg.value.length) :
    SerializeMessage host (codec host order) msg output =
      some (true, wireBytes order 2 msg.type ++ wireBytes order 4 msg.length
        ++ msg.value.take msg.length) := by
  unfold SerializeMessage
  simp only [objectBytes_Convert16, objectBytes_Convert32, size_t_header_add _ hl]
  obtain ⟨P2, P4, PV, hR, p2, p4, pv⟩ :=
    split_header (resize output (6 + msg.length)) msg.length (resize_length _ _)
  rw [hR]
  have w2 := wireBytes_length order 2 msg.type
  have w4 := wireBytes_length order 4 msg.length
  generalize wireBytes order 2 msg.type = H2 at *
  generalize wireBytes order 4 msg.length = H4 at *
  have m1 : memcpy (P2 ++ (P4 ++ PV)) 0 H2 = some (H2 ++ (P4 ++ PV)) := by
    have h := memcpy_append [] P2 (P4 ++ PV) H2 0 rfl (by omega)
    simpa using h
  have m2 : memcpy (H2 ++ (P4 ++ PV)) 2 H4 = some (H2 ++ (H4 ++ PV)) :=
    memcpy_append H2 P4 PV H4 2 w2.symm (by omega)
  simp only [m1, m2, Option.bind_eq_bind, Option.some_bind]
  by_cases h0 : msg.length > 0
  · have r : readData msg.value msg.length = some (msg.value.take msg.length) := by
      simp [readData, hv]
    have tl : (msg.value.take msg.length).length = msg.length := by
      simp only [List.length_take]
      omega
    have m3 : memcpy (H2 ++ (H4 ++ PV)) TLV_HEADER_SIZE (msg.value.take msg.length)
        = some (H2 ++ (H4 ++ msg.value.take msg.length)) := by
      have h := memcpy_append (H2 ++ H4) PV [] (msg.value.take msg.length) TLV_HEADER_SIZE
        (by simp [TLV_HEADER_SIZE, w2, w4]) (by omega)
      simpa using h
    simp [h0, r, m3]
  · have hz : msg.length = 0 := by omega
    have hd : PV = [] := List.eq_nil_of_length_eq_zero (by omega)
    simp [hz, hd]

end TLVProtocol

namespace TLVProtocol

/-- Parsing a buffer that starts with the wire form of a well-formed message yields that
message, whatever follows it. -/
theorem ParseMessage_wire_append (host order : ByteOrder) (m : TLVMessage)
    (rest : List Byte) (msg : TLVMessage) (ht : m.type < 2 ^ 16) (hl : m.length < 2 ^ 32)
    (hv : m.value.length = m.length) :
    ParseMessage host (codec host order)
        (wireBytes order 2 m.type ++ wireBytes order 4 m.length ++ m.value ++ rest) msg
      = (true, m, 6 + m.length) := by
  rw [ParseMessage_eq]
  have w2 := wireBytes_length order 2 m.type
  have w4 := wireBytes_length order 4 m.length
  have v2 : wireValue order (wireBytes order 2 m.type) = m.type :=
    wireValue_wireBytes order 2 m.type (by norm_num at ht ⊢; exact ht)
  have v4 : wireValue order (wireBytes order 4 m.length) = m.length :=
    wireValue_wireBytes order 4 m.length (by norm_num at hl ⊢; exact hl)
  generalize wireBytes order 2 m.type = H2 at *
  generalize wireBytes order 4 m.length = H4 at *
  have t2 : (H2 ++ H4 ++ m.value ++ rest).take 2 = H2 := by
    rw [List.append_assoc, List.append_assoc, ← w2, List.take_left]
  have t4 : ((H2 ++ H4 ++ m.value ++ rest).drop 2).take 4 = H4 := by
    rw [List.append_assoc, List.append_assoc, ← w2, List.drop_left, ← w4, List.take_left]
  have t6 : (H2 ++ H4 ++ m.value ++ rest).drop 6 = m.value ++ rest := by
    have e : (6 : Nat) = (H2 ++ H4).length := by simp [w2, w4]
    rw [List.append_assoc (H2 ++ H4), e, List.drop_left]
  have tv : (m.value ++ rest).take m.length = m.value := by
    rw [← hv, List.take_left]
  have hlen : (H2 ++ H4 ++ m.value ++ rest).length = 6 + m.length + rest.length := by
    simp only [List.length_append, w2, w4, hv]
  rw [t2, t4, t6, v2, v4, tv, hlen, if_neg (by omega), if_neg (by omega)]

/-- Big-endian wire form of a 16-bit field. -/
theorem wireBytes_big_two (v : Nat) :
    wireBytes ByteOrder.BigEndian 2 v = [toByte (v / 256), toByte v] := by
  simp [wireBytes, bytesLE_two]

/-- Big-endian wire form of a 32-bit field. -/
theorem wireBytes_big_four (v : Nat) :
    wireBytes ByteOrder.BigEndian 4 v
      = [toByte (v / 16777216), toByte (v / 65536), toByte (v / 256), toByte v] := by
  simp [wireBytes, bytesLE_four]

/-- Little-endian wire form of a 16-bit field. -/
theorem wireBytes_little_two (v : Nat) :
    wireBytes ByteOrder.LittleEndian 2 v = [toByte v, toByte (v / 256)] := by
  simp [wireBytes, bytesLE_two]

/-- Little-endian wire form of a 32-bit field. -/
theorem wireBytes_little_four (v : Nat) :
    wireBytes ByteOrder.LittleEndian 4 v
      = [toByte v, toByte (v / 256), toByte (v / 65536), toByte (v / 16777216)] := by
  simp [wireBytes, bytesLE_four]

/-- A default-constructed codec is the codec configured for big-endian. -/
theorem new_eq_codec (host : ByteOrder) : TLVProtocol.new host = codec host ByteOrder.BigEndian :=
  rfl

end TLVProtocol

/-! ## Theorems: outbound queue -/

namespace QueueMap

theorem find_set_self (m : QueueMap) (fd : Int) (q : EntryQueue) :
    find (set m fd q) fd = some q := by
  induction m with
  | nil => simp [set, find]
  | cons hd rest ih =>
    obtain ⟨k, q0⟩ := hd
    by_cases h1 : k = fd
    · simp [set, find, h1]
    · by_cases h2 : fd < k
      · simp [set, find, h1, h2]
      · simp [set, find, h1, h2, ih]

theorem find_set_other (m : QueueMap) (fd fd' : Int) (q : EntryQueue) (h : fd' ≠ fd) :
    find (set m fd q) fd' = find m fd' := by
  have h' : ¬ fd = fd' := fun e => h e.symm
  induction m with
  | nil => simp [set, find, h']
  | cons hd rest ih =>
    obtain ⟨k, q0⟩ := hd
    by_cases h1 : k = fd
    · subst h1
      simp [set, find, h']
    · by_cases h2 : fd < k
      · simp [set, find, h1, h2, h']
      · by_cases h3 : k = fd'
        · subst h3
          simp [set, find, h1, h2]
        · simp [set, find, h1, h2, h3, ih]

theorem set_set (m : QueueMap) (fd : Int) (q q' : EntryQueue) :
    set (set m fd q) fd q' = set m fd q' := by
  induction m with
  | nil => simp [set]
  | cons hd rest ih =>
    obtain ⟨k, q0⟩ := hd
    by_cases h1 : k = fd
    · simp [set, h1]
    · by_cases h2 : fd < k
      · simp [set, h1, h2]
      · simp [set, h1, h2, ih]

/-- The keys after `set` are the old keys and `fd`. -/
theorem mem_keys_set (m : QueueMap) (fd : Int) (q : EntryQueue) (k : Int)
    (h : k ∈ (set m fd q).map Prod.fst) : k = fd ∨ k ∈ m.map Prod.fst := by
  induction m with
  | nil =>
    simp [set] at h
    exact Or.inl h
  | cons hd rest ih =>
    obtain ⟨k0, q0⟩ := hd
    by_cases h1 : k0 = fd
    · simp only [set, h1, if_true, List.map_cons, List.mem_cons] at h
      rcases h with h | h
      · exact Or.inl h
      · exact Or.inr (by simp only [List.map_cons, List.mem_cons]; exact Or.inr h)
    · by_cases h2 : fd < k0
      · simp only [set, h1, h2, if_true, if_false, List.map_cons, List.mem_cons] at h
        rcases h with h | h | h
        · exact Or.inl h
        · exact Or.inr (by simp only [List.map_cons, List.mem_cons]; exact Or.inl h)
        · exact Or.inr (by simp only [List.map_cons, List.mem_cons]; exact Or.inr h)
      · simp only [set, h1, h2, if_false, List.map_cons, List.mem_cons] at h
        rcases h with h | h
        · exact Or.inr (by simp only [List.map_cons, List.mem_cons]; exact Or.inl h)
        · rcases ih h with h | h
          · exact Or.inl h
          · exact Or.inr (by simp only [List.map_cons, List.mem_cons]; exact Or.inr h)

theorem WF_nil : WF [] := List.Pairwise.nil

/-- Storing a queue keeps the keys strictly ascending. -/
theorem WF_set (m : QueueMap) (fd : Int) (q : EntryQueue) (h : WF m) : WF (set m fd q) := by
  induction m with
  | nil => simp [set, WF]
  | cons hd rest ih =>
    obtain ⟨k0, q0⟩ := hd
    unfold WF at h
    simp only [List.map_cons, List.pairwise_cons] at h
    obtain ⟨hlt, hrest⟩ := h
    by_cases h1 : k0 = fd
    · subst h1
      unfold WF
      simp only [set, if_true, List.map_cons, List.pairwise_cons]
      exact ⟨hlt, hrest⟩
    · by_cases h2 : fd < k0
      · unfold WF
        simp only [set, h1, h2, if_true, if_false, List.map_cons, List.pairwise_cons,
          List.mem_cons]
        refine ⟨?_, hlt, hrest⟩
        intro a ha
        rcases ha with ha | ha
        · omega
        · have := hlt a ha
          omega
      · have ih' := ih hrest
        unfold WF at ih' ⊢
        simp only [set, h1, h2, if_false, List.map_cons, List.pairwise_cons]
        refine ⟨?_, ih'⟩
        intro a ha
        rcases mem_keys_set rest fd q a ha with ha | ha
        · omega
        · exact hlt a ha

/-- In a map with strictly ascending keys, an element is what `find` returns for its
key. -/
theorem find_of_mem (m : QueueMap) (h : WF m) (k : Int) (q : EntryQueue)
    (hm : (k, q) ∈ m) : find m k = some q := by
  induction m with
  | nil => simp at hm
  | cons hd rest ih =>
    obtain ⟨k0, q0⟩ := hd
    unfold WF at h
    simp only [List.map_cons, List.pairwise_cons] at h
    obtain ⟨hlt, hrest⟩ := h
    simp only [List.mem_cons, Prod.mk.injEq] at hm
    rcases hm with ⟨hk, hq⟩ | hm
    · simp [find, hk, hq]
    · have hk : k0 < k := hlt k (List.mem_map.mpr ⟨(k, q), hm, rfl⟩)
      have hne : ¬ k0 = k := by omega
      simp only [find, hne, if_false]
      exact ih hrest hm

theorem mem_of_find (m : QueueMap) (k : Int) (q : EntryQueue)
    (h : find m k = some q) : (k, q) ∈ m := by
  induction m with
  | nil => simp [find] at h
  | cons hd rest ih =>
    obtain ⟨k0, q0⟩ := hd
    by_cases h1 : k0 = k
    · simp only [find, h1, if_true, Option.some.injEq] at h
      simp [h1, h]
    · simp only [find, h1, if_false] at h
      exact List.mem_cons_of_mem _ (ih h)

end QueueMap

namespace MessageQueue

theorem MessageEntry_new_full (p : List Byte) : MessageEntry.new p p.length = ⟨p⟩ := by
  simp [MessageEntry.new]

theorem nothingQueued_iff (mq : MessageQueue) (fd : Int) :
    NothingQueued mq fd ↔ queued mq fd = [] := by
  unfold NothingQueued queued
  cases QueueMap.find mq.m_queues fd <;> simp

/-- The loop of `PushFront` appends the old queue to the new one and empties it. -/
theorem moveAll_eq (new_queue old_queue : EntryQueue) :
    PushFront.moveAll new_queue old_queue = (new_queue ++ old_queue, []) := by
  induction old_queue generalizing new_queue with
  | nil => simp [PushFront.moveAll]
  | cons e rest ih => simp [PushFront.moveAll, ih]

/-- The merge loop of `GetMessages` appends all entry data and empties the queue. -/
theorem merge_eq (q : EntryQueue) (data : List Byte) :
    GetMessages.merge q data = (data ++ (q.map MessageEntry.data).flatten, []) := by
  induction q generalizing data with
  | nil => simp [GetMessages.merge]
  | cons e rest ih => simp [GetMessages.merge, ih]

/-- Storing a queue after `operator[]` is storing it in the original map. -/
theorem set_index (m : QueueMap) (fd : Int) (q : EntryQueue) :
    QueueMap.set (QueueMap.index m fd).1 fd q = QueueMap.set m fd q := by
  unfold QueueMap.index
  cases QueueMap.find m fd <;> simp [QueueMap.set_set]

theorem index_snd (m : QueueMap) (fd : Int) :
    (QueueMap.index m fd).2 = (QueueMap.find m fd).getD [] := by
  unfold QueueMap.index
  cases QueueMap.find m fd <;> simp

/-- A `Push` with valid arguments succeeds and appends the entry to the queue of `fd`. -/
theorem Push_valid (mq : MessageQueue) (fd : Int) (d : List Byte) (len : Nat)
    (hfd : 0 ≤ fd) (hlen : len ≠ 0) :
    Push mq fd (some d) len
      = (true, { m_queues := QueueMap.set mq.m_queues fd
                    (queued mq fd ++ [MessageEntry.new d len]) }) := by
  have h : ¬ (fd < 0 ∨ len = 0) := by omega
  simp only [Push, h, if_false]
  rw [set_index, index_snd]
  rfl

/-- A `PushFront` with valid arguments succeeds and puts the entry in front of the queue
of `fd`. -/
theorem PushFront_valid (mq : MessageQueue) (fd : Int) (d : List Byte) (len : Nat)
    (hfd : 0 ≤ fd) (hlen : len ≠ 0) :
    PushFront mq fd (some d) len
      = (true, { m_queues := QueueMap.set mq.m_queues fd
                    (MessageEntry.new d len :: queued mq fd) }) := by
  have h : ¬ (fd < 0 ∨ len = 0) := by omega
  simp only [PushFront, h, if_false, moveAll_eq, QueueMap.set_set]
  rw [set_index, index_snd]
  rfl

theorem queued_set_self (m : QueueMap) (fd : Int) (q : EntryQueue) :
    queued { m_queues := QueueMap.set m fd q } fd = q := by
  simp [queued, QueueMap.find_set_self]

theorem queued_set_other (m : QueueMap) (fd fd' : Int) (q : EntryQueue) (h : fd' ≠ fd) :
    queued { m_queues := QueueMap.set m fd q } fd' = queued { m_queues := m } fd' := by
  simp [queued, QueueMap.find_set_other _ _ _ _ h]

/-- Pushing payloads one after the other appends them, in order, to the queue. -/
theorem queued_pushAll (mq : MessageQueue) (fd : Int) (ps : List (List Byte))
    (hfd : 0 ≤ fd) (hps : ∀ p ∈ ps, p ≠ []) :
    queued (pushAll mq fd ps) fd = queued mq fd ++ ps.map MessageEntry.mk := by
  induction ps generalizing mq with
  | nil => simp [pushAll]
  | cons p rest ih =>
    have hp : p.length ≠ 0 := by
      have := hps p (List.mem_cons_self _ _)
      intro h
      exact this (List.eq_nil_of_length_eq_zero h)
    have hrest : ∀ p ∈ rest, p ≠ [] := fun x hx => hps x (List.mem_cons_of_mem _ hx)
    have e : pushAll mq fd (p :: rest) = pushAll (Push mq fd (some p) p.length).2 fd rest :=
      rfl
    rw [e, ih _ hrest, Push_valid mq fd p p.length hfd hp]
    simp [queued_set_self, MessageEntry_new_full]

/-- Calling `GetMessages` on a non-empty queue succeeds, returns the concatenation of the queued
data and leaves an empty queue for `fd`. -/
theorem GetMessages_nonempty (mq : MessageQueue) (fd : Int) (data : List Byte)
    (h : queued mq fd ≠ []) :
    GetMessages mq fd data
      = (true, { m_queues := QueueMap.set mq.m_queues fd [] },
          ((queued mq fd).map MessageEntry.data).flatten) := by
  unfold queued at h ⊢
  unfold GetMessages
  cases hf : QueueMap.find mq.m_queues fd with
  | none => simp [hf] at h
  | some q =>
    simp only [hf, Option.getD_some] at h ⊢
    have hne : q.isEmpty = false := by
      cases q with
      | nil => exact absurd rfl h
      | cons a b => rfl
    simp [hne, merge_eq]

/-- Calling `GetMessages` with nothing queued fails and changes nothing. -/
theorem GetMessages_empty (mq : MessageQueue) (fd : Int) (data : List Byte)
    (h : queued mq fd = []) :
    GetMessages mq fd data = (false, mq, data) := by
  unfold queued at h
  unfold GetMessages
  cases hf : QueueMap.find mq.m_queues fd with
  | none => rfl
  | some q =>
    simp only [hf, Option.getD_some] at h
    subst h
    rfl

theorem HasMessages_iff (mq : MessageQueue) (fd : Int) :
    HasMessages mq fd = true ↔ queued mq fd ≠ [] := by
  unfold HasMessages queued
  cases QueueMap.find mq.m_queues fd with
  | none => simp
  | some q => cases q <;> simp

/-- In a well-formed map `GetAllFds` lists exactly the handles that have messages. -/
theorem mem_GetAllFds_iff (mq : MessageQueue) (hwf : QueueMap.WF mq.m_queues) (fd : Int) :
    fd ∈ GetAllFds mq ↔ HasMessages mq fd = true := by
  rw [HasMessages_iff]
  unfold GetAllFds queued
  constructor
  · intro h
    obtain ⟨⟨k, q⟩, hmem, hk⟩ := List.mem_map.mp h
    simp only at hk
    subst hk
    obtain ⟨hin, hq⟩ := List.mem_filter.mp hmem
    rw [QueueMap.find_of_mem _ hwf k q hin]
    cases q with
    | nil => simp at hq
    | cons a b => simp
  · intro h
    cases hf : QueueMap.find mq.m_queues fd with
    | none => simp [hf] at h
    | some q =>
      simp only [hf, Option.getD_some] at h
      refine List.mem_map.mpr ⟨(fd, q), List.mem_filter.mpr ⟨QueueMap.mem_of_find _ _ _ hf, ?_⟩,
        rfl⟩
      cases q with
      | nil => exact absurd rfl h
      | cons a b => rfl

end MessageQueue

namespace QueueMap

theorem WF_erase (m : QueueMap) (fd : Int) (h : WF m) : WF (erase m fd) := by
  induction m with
  | nil => exact h
  | cons hd rest ih =>
    obtain ⟨k0, q0⟩ := hd
    unfold WF at h
    simp only [List.map_cons, List.pairwise_cons] at h
    obtain ⟨hlt, hrest⟩ := h
    by_cases h1 : k0 = fd
    · simp only [erase, h1, if_true]
      exact hrest
    · have ih' := ih hrest
      unfold WF at ih' ⊢
      simp only [erase, h1, if_false, List.map_cons, List.pairwise_cons]
      refine ⟨?_, ih'⟩
      intro a ha
      apply hlt a
      clear ih ih' hlt hrest
      induction rest with
      | nil => simp [erase] at ha
      | cons hd2 rest2 ih2 =>
        obtain ⟨k2, q2⟩ := hd2
        by_cases h2 : k2 = fd
        · simp only [erase, h2, if_true] at ha
          exact List.mem_cons_of_mem _ ha
        · simp only [erase, h2, if_false, List.map_cons, List.mem_cons] at ha
          rcases ha with ha | ha
          · simp [ha]
          · exact List.mem_cons_of_mem _ (ih2 ha)

theorem WF_index (m : QueueMap) (fd : Int) (h : WF m) : WF (index m fd).1 := by
  unfold index
  cases find m fd with
  | none => exact WF_set m fd [] h
  | some q => exact h

end QueueMap

namespace MessageQueue

/-- The map of a new `MessageQueue` has strictly ascending keys, and every operation
keeps them so: the well-formedness assumed of a state holds in every reachable state. -/
theorem WF_preserved :
    QueueMap.WF new.m_queues
    ∧ (∀ mq fd data len, QueueMap.WF mq.m_queues →
        QueueMap.WF (Push mq fd data len).2.m_queues)
    ∧ (∀ mq fd data len, QueueMap.WF mq.m_queues →
        QueueMap.WF (PushFront mq fd data len).2.m_queues)
    ∧ (∀ mq fd data, QueueMap.WF mq.m_queues →
        QueueMap.WF (GetMessages mq fd data).2.1.m_queues)
    ∧ (∀ mq fd, QueueMap.WF mq.m_queues → QueueMap.WF (Clear mq fd).m_queues)
    ∧ (∀ mq, QueueMap.WF (ClearAll mq).m_queues) := by
  refine ⟨QueueMap.WF_nil, ?_, ?_, ?_, ?_, ?_⟩
  · intro mq fd data len h
    cases data with
    | none => exact h
    | some d =>
      by_cases hc : fd < 0 ∨ len = 0
      · simp only [Push, hc, if_true]
        exact h
      · simp only [Push, hc, if_false]
        exact QueueMap.WF_set _ _ _ (QueueMap.WF_index _ _ h)
  · intro mq fd data len h
    cases data with
    | none => exact h
    | some d =>
      by_cases hc : fd < 0 ∨ len = 0
      · simp only [PushFront, hc, if_true]
        exact h
      · simp only [PushFront, hc, if_false]
        exact QueueMap.WF_set _ _ _ (QueueMap.WF_set _ _ _ (QueueMap.WF_index _ _ h))
  · intro mq fd data h
    by_cases hq : queued mq fd = []
    · rw [GetMessages_empty mq fd data hq]
      exact h
    · rw [GetMessages_nonempty mq fd data hq]
      exact QueueMap.WF_set _ _ _ h
  · intro mq fd h
    unfold Clear
    cases QueueMap.find mq.m_queues fd with
    | none => exact h
    | some q => exact QueueMap.WF_erase _ _ h
  · intro mq
    exact QueueMap.WF_nil

end MessageQueue


/-! ## Claims about the TLV codec -/

/-- C1. Round trip: for every message whose value holds exactly `length` bytes (any
16-bit type, any 32-bit length), either configured byte order and either host byte
order, `SerializeMessage` succeeds and `ParseMessage` on its output returns success with
a message equal to the original and `consumed = 6 + length`. -/
theorem TLVProtocol.roundtrip (host order : ByteOrder) (m : TLVMessage)
    (output : List Byte) (msg : TLVMessage) (ht : m.type < 2 ^ 16)
    (hl : m.length < 2 ^ 32) (hv : m.value.length = m.length) :
    ∃ bytes, TLVProtocol.SerializeMessage host (codec host order) m output = some (true, bytes)
      ∧ TLVProtocol.ParseMessage host (codec host order) bytes msg
          = (true, m, 6 + m.length) := by
  refine ⟨_, TLVProtocol.SerializeMessage_eq host order m output hl (by omega), ?_⟩
  have ht' : m.value.take m.length = m.value := by rw [← hv, List.take_length]
  have h := TLVProtocol.ParseMessage_wire_append host order m [] msg ht hl hv
  rw [List.append_nil] at h
  rw [ht']
  exact h

/-- Instance of C1: the message of type 1 with value "hello", big-endian wire order on a
little-endian host. -/
theorem TLVProtocol.roundtrip_witness :
    ∃ bytes, TLVProtocol.SerializeMessage ByteOrder.LittleEndian
        (codec ByteOrder.LittleEndian ByteOrder.BigEndian)
        { type := 1, length := 5, value := [104, 101, 108, 108, 111] } [] = some (true, bytes)
      ∧ TLVProtocol.ParseMessage ByteOrder.LittleEndian
          (codec ByteOrder.LittleEndian ByteOrder.BigEndian) bytes TLVMessage.default
          = (true, { type := 1, length := 5, value := [104, 101, 108, 108, 111] }, 6 + 5) :=
  TLVProtocol.roundtrip ByteOrder.LittleEndian ByteOrder.BigEndian
    { type := 1, length := 5, value := [104, 101, 108, 108, 111] } [] TLVMessage.default
    (by decide) (by decide) (by decide)

/-- C2. Incomplete frame: on a buffer of fewer than 6 bytes, and on a buffer of at least
6 bytes but fewer than `6 + L` bytes, `L` being the length its header declares,
`ParseMessage` returns failure and sets `consumed` to 0. -/
theorem TLVProtocol.incomplete_frame (host order : ByteOrder) (data : List Byte)
    (msg : TLVMessage) :
    (data.length < 6 →
      (TLVProtocol.ParseMessage host (codec host order) data msg).1 = false
      ∧ (TLVProtocol.ParseMessage host (codec host order) data msg).2.2 = 0)
    ∧ (6 ≤ data.length → data.length < 6 + wireValue order ((data.drop 2).take 4) →
      (TLVProtocol.ParseMessage host (codec host order) data msg).1 = false
      ∧ (TLVProtocol.ParseMessage host (codec host order) data msg).2.2 = 0) := by
  rw [TLVProtocol.ParseMessage_eq]
  constructor
  · intro h
    simp [h]
  · intro h6 hL
    have h6' : ¬ data.length < 6 := by omega
    simp [h6', hL]

/-- Instances of C2: a 3-byte buffer, and a full header declaring 4 value bytes followed
by 2 bytes only. -/
theorem TLVProtocol.incomplete_frame_witness :
    ((TLVProtocol.ParseMessage ByteOrder.LittleEndian
        (codec ByteOrder.LittleEndian ByteOrder.BigEndian) [0, 1, 0] TLVMessage.default).1 = false
      ∧ (TLVProtocol.ParseMessage ByteOrder.LittleEndian
        (codec ByteOrder.LittleEndian ByteOrder.BigEndian) [0, 1, 0] TLVMessage.default).2.2 = 0)
    ∧ ((TLVProtocol.ParseMessage ByteOrder.LittleEndian
        (codec ByteOrder.LittleEndian ByteOrder.BigEndian) [0, 1, 0, 0, 0, 4, 9, 9]
        TLVMessage.default).1 = false
      ∧ (TLVProtocol.ParseMessage ByteOrder.LittleEndian
        (codec ByteOrder.LittleEndian ByteOrder.BigEndian) [0, 1, 0, 0, 0, 4, 9, 9]
        TLVMessage.default).2.2 = 0) :=
  ⟨(TLVProtocol.incomplete_frame ByteOrder.LittleEndian ByteOrder.BigEndian [0, 1, 0]
      TLVMessage.default).1 (by decide),
   (TLVProtocol.incomplete_frame ByteOrder.LittleEndian ByteOrder.BigEndian
      [0, 1, 0, 0, 0, 4, 9, 9] TLVMessage.default).2 (by decide) (by decide)⟩

/-- C3. Concatenated messages: for two well-formed messages `m1` and `m2`,
`ParseMessage` on the serialization of `m1` followed by that of `m2` (or by any other
bytes) returns `m1` with `consumed = 6 + m1.length`, and `ParseMessage` on the buffer
with that prefix removed returns `m2`. -/
theorem TLVProtocol.concatenated (host order : ByteOrder) (m1 m2 : TLVMessage)
    (out1 out2 : List Byte) (msg msg' : TLVMessage)
    (ht1 : m1.type < 2 ^ 16) (hl1 : m1.length < 2 ^ 32) (hv1 : m1.value.length = m1.length)
    (ht2 : m2.type < 2 ^ 16) (hl2 : m2.length < 2 ^ 32) (hv2 : m2.value.length = m2.length) :
    ∃ s1 s2, TLVProtocol.SerializeMessage host (codec host order) m1 out1 = some (true, s1)
      ∧ TLVProtocol.SerializeMessage host (codec host order) m2 out2 = some (true, s2)
      ∧ TLVProtocol.ParseMessage host (codec host order) (s1 ++ s2) msg
          = (true, m1, 6 + m1.length)
      ∧ (∀ rest, TLVProtocol.ParseMessage host (codec host order) (s1 ++ rest) msg
          = (true, m1, 6 + m1.length))
      ∧ TLVProtocol.ParseMessage host (codec host order) ((s1 ++ s2).drop (6 + m1.length)) msg'
          = (true, m2, 6 + m2.length) := by
  have e1 : m1.value.take m1.length = m1.value := by rw [← hv1, List.take_length]
  have e2 : m2.value.take m2.length = m2.value := by rw [← hv2, List.take_length]
  have p1 := fun rest => TLVProtocol.ParseMessage_wire_append host order m1 rest msg ht1 hl1 hv1
  have p2 := TLVProtocol.ParseMessage_wire_append host order m2 [] msg' ht2 hl2 hv2
  rw [List.append_nil] at p2
  refine ⟨_, _, TLVProtocol.SerializeMessage_eq host order m1 out1 hl1 (by omega),
    TLVProtocol.SerializeMessage_eq host order m2 out2 hl2 (by omega), ?_, ?_, ?_⟩
  · rw [e1]
    exact p1 _
  · intro rest
    rw [e1]
    exact p1 rest
  · rw [e1, e2]
    have hlen : (wireBytes order 2 m1.type ++ wireBytes order 4 m1.length ++ m1.value).length
        = 6 + m1.length := by
      simp only [List.length_append, wireBytes_length, hv1]
    rw [← hlen, List.drop_left]
    exact p2

/-- Instance of C3: the messages (1, "hi") and (2, "a"), little-endian wire order on a
big-endian host. -/
theorem TLVProtocol.concatenated_witness :
    ∃ s1 s2, TLVProtocol.SerializeMessage ByteOrder.BigEndian
        (codec ByteOrder.BigEndian ByteOrder.LittleEndian)
        { type := 1, length := 2, value := [104, 105] } [] = some (true, s1)
      ∧ TLVProtocol.SerializeMessage ByteOrder.BigEndian
        (codec ByteOrder.BigEndian ByteOrder.LittleEndian)
        { type := 2, length := 1, value := [97] } [] = some (true, s2)
      ∧ TLVProtocol.ParseMessage ByteOrder.BigEndian
          (codec ByteOrder.BigEndian ByteOrder.LittleEndian) (s1 ++ s2) TLVMessage.default
          = (true, { type := 1, length := 2, value := [104, 105] }, 6 + 2)
      ∧ (∀ rest, TLVProtocol.ParseMessage ByteOrder.BigEndian
          (codec ByteOrder.BigEndian ByteOrder.LittleEndian) (s1 ++ rest) TLVMessage.default
          = (true, { type := 1, length := 2, value := [104, 105] }, 6 + 2))
      ∧ TLVProtocol.ParseMessage ByteOrder.BigEndian
          (codec ByteOrder.BigEndian ByteOrder.LittleEndian) ((s1 ++ s2).drop (6 + 2))
          TLVMessage.default
          = (true, { type := 2, length := 1, value := [97] }, 6 + 1) :=
  TLVProtocol.concatenated ByteOrder.BigEndian ByteOrder.LittleEndian
    { type := 1, length := 2, value := [104, 105] } { type := 2, length := 1, value := [97] }
    [] [] TLVMessage.default TLVMessage.default
    (by decide) (by decide) (by decide) (by decide) (by decide) (by decide)

/-- C4. Bit-exact wire format: for every message with `length` value bytes,
`SerializeMessage` succeeds and its output is exactly `6 + length` bytes: the 2 bytes of
the type, then the 4 bytes of the length, most significant byte first for a
default-constructed codec and for a codec configured big-endian, least significant byte
first for a codec configured little-endian, whichever the host byte order is; then the
value bytes unchanged. -/
theorem TLVProtocol.wire_format (host : ByteOrder) (m : TLVMessage) (output : List Byte)
    (hl : m.length < 2 ^ 32) (hv : m.value.length = m.length) :
    TLVProtocol.SerializeMessage host (TLVProtocol.new host) m output
        = some (true, [toByte (m.type / 256), toByte m.type,
            toByte (m.length / 16777216), toByte (m.length / 65536),
            toByte (m.length / 256), toByte m.length] ++ m.value)
    ∧ TLVProtocol.SerializeMessage host (codec host ByteOrder.BigEndian) m output
        = some (true, [toByte (m.type / 256), toByte m.type,
            toByte (m.length / 16777216), toByte (m.length / 65536),
            toByte (m.length / 256), toByte m.length] ++ m.value)
    ∧ TLVProtocol.SerializeMessage host (codec host ByteOrder.LittleEndian) m output
        = some (true, [toByte m.type, toByte (m.type / 256),
            toByte m.length, toByte (m.length / 256),
            toByte (m.length / 65536), toByte (m.length / 16777216)] ++ m.value)
    ∧ ∀ order, ∃ bytes,
        TLVProtocol.SerializeMessage host (codec host order) m output = some (true, bytes)
        ∧ bytes.length = 6 + m.length := by
  have e : m.value.take m.length = m.value := by rw [← hv, List.take_length]
  have hb := TLVProtocol.SerializeMessage_eq host ByteOrder.BigEndian m output hl (by omega)
  have hle := TLVProtocol.SerializeMessage_eq host ByteOrder.LittleEndian m output hl
    (by omega)
  rw [e, TLVProtocol.wireBytes_big_two, TLVProtocol.wireBytes_big_four] at hb
  rw [e, TLVProtocol.wireBytes_little_two, TLVProtocol.wireBytes_little_four] at hle
  refine ⟨?_, ?_, ?_, ?_⟩
  · rw [TLVProtocol.new_eq_codec, hb]
    rfl
  · rw [hb]
    rfl
  · rw [hle]
    rfl
  · intro order
    refine ⟨_, TLVProtocol.SerializeMessage_eq host order m output hl (by omega), ?_⟩
    simp only [List.length_append, wireBytes_length, e, hv]

/-- Instance of C4: type `0x0102`, length 3 on a little-endian host. -/
theorem TLVProtocol.wire_format_witness :
    TLVProtocol.SerializeMessage ByteOrder.LittleEndian
        (TLVProtocol.new ByteOrder.LittleEndian)
        { type := 0x0102, length := 3, value := [7, 8, 9] } [5, 5]
      = some (true, [1, 2, 0, 0, 0, 3, 7, 8, 9]) :=
  (TLVProtocol.wire_format ByteOrder.LittleEndian
    { type := 0x0102, length := 3, value := [7, 8, 9] } [5, 5] (by decide) (by decide)).1

/-- C5. Parsed-message invariant: on every input buffer on which `ParseMessage` returns
success, the returned message has `value.size() = length`, its length is the number
declared in bytes 2..5 of the buffer (read in the configured byte order), its value is
the buffer bytes `[6, 6 + length)`, and `consumed = 6 + length ≤` buffer size. -/
theorem TLVProtocol.parsed_invariant (host order : ByteOrder) (data : List Byte)
    (msg : TLVMessage)
    (h : (TLVProtocol.ParseMessage host (codec host order) data msg).1 = true) :
    (TLVProtocol.ParseMessage host (codec host order) data msg).2.1.value.length
        = (TLVProtocol.ParseMessage host (codec host order) data msg).2.1.length
    ∧ (∃ b0 b1 b2 b3 b4 b5 rest, data = b0 :: b1 :: b2 :: b3 :: b4 :: b5 :: rest
        ∧ (TLVProtocol.ParseMessage host (codec host order) data msg).2.1.length
          = match order with
            | ByteOrder.BigEndian =>
              b2.val * 16777216 + b3.val * 65536 + b4.val * 256 + b5.val
            | ByteOrder.LittleEndian =>
              b2.val + b3.val * 256 + b4.val * 65536 + b5.val * 16777216)
    ∧ (TLVProtocol.ParseMessage host (codec host order) data msg).2.1.value
        = (data.drop 6).take
            (TLVProtocol.ParseMessage host (codec host order) data msg).2.1.length
    ∧ (TLVProtocol.ParseMessage host (codec host order) data msg).2.2
        = 6 + (TLVProtocol.ParseMessage host (codec host order) data msg).2.1.length
    ∧ (TLVProtocol.ParseMessage host (codec host order) data msg).2.2 ≤ data.length := by
  rw [TLVProtocol.ParseMessage_eq] at h ⊢
  by_cases h6 : data.length < 6
  · simp [h6] at h
  · by_cases hL : data.length < 6 + wireValue order ((data.drop 2).take 4)
    · simp [h6, hL] at h
    · simp only [h6, hL, if_false]
      refine ⟨?_, ?_, trivial, trivial, by omega⟩
      · simp only [List.length_take, List.length_drop]
        omega
      · match data, h6 with
        | b0 :: b1 :: b2 :: b3 :: b4 :: b5 :: rest, _ =>
          refine ⟨b0, b1, b2, b3, b4, b5, rest, rfl, ?_⟩
          cases order
          · simp [wireValue, valueLE]
            omega
          · simp [wireValue, valueLE]
            omega
        | [], h6 => simp at h6
        | [_], h6 => simp at h6
        | [_, _], h6 => simp at h6
        | [_, _, _], h6 => simp at h6
        | [_, _, _, _], h6 => simp at h6
        | [_, _, _, _, _], h6 => simp at h6

/-- Instance of C5: a buffer holding one frame of 2 value bytes and 1 more byte. -/
theorem TLVProtocol.parsed_invariant_witness :
    (TLVProtocol.ParseMessage ByteOrder.LittleEndian
      (codec ByteOrder.LittleEndian ByteOrder.BigEndian) [0, 7, 0, 0, 0, 2, 50, 51, 52]
      TLVMessage.default).2.2 ≤ 9 :=
  (TLVProtocol.parsed_invariant ByteOrder.LittleEndian ByteOrder.BigEndian
    [0, 7, 0, 0, 0, 2, 50, 51, 52] TLVMessage.default (by decide)).2.2.2.2

/-! ## Claims about the byte-order converter -/

/-- C6. Byte-swap involution: `Swap16 (Swap16 x) = x` for every 16-bit value,
`Swap32 (Swap32 x) = x` for every 32-bit value and `Swap64 (Swap64 x) = x` for every
64-bit value. -/
theorem ByteConverter.swap_involution :
    (∀ x, x < 2 ^ 16 → ByteConverter.Swap16 (ByteConverter.Swap16 x) = x)
    ∧ (∀ x, x < 2 ^ 32 → ByteConverter.Swap32 (ByteConverter.Swap32 x) = x)
    ∧ (∀ x, x < 2 ^ 64 → ByteConverter.Swap64 (ByteConverter.Swap64 x) = x) :=
  ⟨ByteConverter.Swap16_Swap16, ByteConverter.Swap32_Swap32, ByteConverter.Swap64_Swap64⟩

/-- Instances of C6: zero and the all-ones pattern of each width. -/
theorem ByteConverter.swap_involution_witness :
    (ByteConverter.Swap16 (ByteConverter.Swap16 0) = 0
      ∧ ByteConverter.Swap16 (ByteConverter.Swap16 0xFFFF) = 0xFFFF)
    ∧ (ByteConverter.Swap32 (ByteConverter.Swap32 0) = 0
      ∧ ByteConverter.Swap32 (ByteConverter.Swap32 0xFFFFFFFF) = 0xFFFFFFFF)
    ∧ (ByteConverter.Swap64 (ByteConverter.Swap64 0) = 0
      ∧ ByteConverter.Swap64 (ByteConverter.Swap64 0xFFFFFFFFFFFFFFFF)
          = 0xFFFFFFFFFFFFFFFF) :=
  ⟨⟨ByteConverter.swap_involution.1 0 (by decide),
    ByteConverter.swap_involution.1 0xFFFF (by decide)⟩,
   ⟨ByteConverter.swap_involution.2.1 0 (by decide),
    ByteConverter.swap_involution.2.1 0xFFFFFFFF (by decide)⟩,
   ⟨ByteConverter.swap_involution.2.2 0 (by decide),
    ByteConverter.swap_involution.2.2 0xFFFFFFFFFFFFFFFF (by decide)⟩⟩

/-- C7. `Convert16`, `Convert32` and `Convert64` return their argument unchanged when the
configured target order equals the host order, and otherwise return its full byte
reversal: the result fits the width and, for a `w`-byte value, byte `k` of the result is
byte `w - 1 - k` of the argument, for every `k < w`. -/
theorem ByteConverter.convert_identity_or_reversal (c : ByteConverter) (x : Nat) :
    (c.m_host_order = c.m_byte_order →
      c.Convert16 x = x ∧ c.Convert32 x = x ∧ c.Convert64 x = x)
    ∧ (c.m_host_order ≠ c.m_byte_order →
      (c.Convert16 x < 2 ^ 16
        ∧ ∀ k, k < 2 → byteAt (c.Convert16 x) k = byteAt x (2 - 1 - k))
      ∧ (c.Convert32 x < 2 ^ 32
        ∧ ∀ k, k < 4 → byteAt (c.Convert32 x) k = byteAt x (4 - 1 - k))
      ∧ (c.Convert64 x < 2 ^ 64
        ∧ ∀ k, k < 8 → byteAt (c.Convert64 x) k = byteAt x (8 - 1 - k))) := by
  constructor
  · intro h
    simp [ByteConverter.Convert16, ByteConverter.Convert32, ByteConverter.Convert64, h]
  · intro h
    simp only [ByteConverter.Convert16, ByteConverter.Convert32, ByteConverter.Convert64,
      if_neg h]
    exact ⟨⟨ByteConverter.Swap16_lt x, ByteConverter.Swap16_byteAt x⟩,
      ⟨ByteConverter.Swap32_lt x, ByteConverter.Swap32_byteAt x⟩,
      ⟨ByteConverter.Swap64_lt x, ByteConverter.Swap64_byteAt x⟩⟩

/-- Instances of C7: a converter whose target order is the host order, and a big-endian
target on a little-endian host converting `0x0102030405060708`. -/
theorem ByteConverter.convert_identity_or_reversal_witness :
    ByteConverter.Convert32
        { m_byte_order := ByteOrder.LittleEndian, m_host_order := ByteOrder.LittleEndian }
        0x01020304 = 0x01020304
    ∧ byteAt (ByteConverter.Convert64
        { m_byte_order := ByteOrder.BigEndian, m_host_order := ByteOrder.LittleEndian }
        0x0102030405060708) 0 = byteAt 0x0102030405060708 (8 - 1 - 0) :=
  ⟨((ByteConverter.convert_identity_or_reversal
      { m_byte_order := ByteOrder.LittleEndian, m_host_order := ByteOrder.LittleEndian }
      0x01020304).1 (by decide)).2.1,
   ((ByteConverter.convert_identity_or_reversal
      { m_byte_order := ByteOrder.BigEndian, m_host_order := ByteOrder.LittleEndian }
      0x0102030405060708).2 (by decide)).2.2.2 0 (by decide)⟩

/-! ## Claims about the outbound queue -/

/-- C8. Queue FIFO order: for a valid handle `h` with nothing queued and non-empty
payloads `P1..Pn` (`n ≥ 1`) pushed with `Push(h, .)`, `GetMessages(h)` succeeds and
returns the concatenation `P1 ++ ... ++ Pn`; and if `PushFront(h, Px)` is performed
after those pushes, followed by further pushes `Q1..Qk`, `GetMessages(h)` returns
`Px ++ P1 ++ ... ++ Pn ++ Q1 ++ ... ++ Qk`. -/
theorem MessageQueue.fifo_order (mq : MessageQueue) (h : Int) (ps qs : List (List Byte))
    (px data : List Byte) (hh : 0 ≤ h) (h0 : MessageQueue.NothingQueued mq h)
    (hps : ∀ p ∈ ps, p ≠ []) (hqs : ∀ q ∈ qs, q ≠ []) :
    (ps ≠ [] →
      (MessageQueue.GetMessages (MessageQueue.pushAll mq h ps) h data).1 = true
      ∧ (MessageQueue.GetMessages (MessageQueue.pushAll mq h ps) h data).2.2 = ps.flatten)
    ∧ (px ≠ [] →
      (MessageQueue.GetMessages
          (MessageQueue.pushAll
            (MessageQueue.PushFront (MessageQueue.pushAll mq h ps) h (some px) px.length).2
            h qs) h data).1 = true
      ∧ (MessageQueue.GetMessages
          (MessageQueue.pushAll
            (MessageQueue.PushFront (MessageQueue.pushAll mq h ps) h (some px) px.length).2
            h qs) h data).2.2 = px ++ ps.flatten ++ qs.flatten) := by
  have hq0 := (MessageQueue.nothingQueued_iff mq h).mp h0
  have hmap : ∀ l : List (List Byte),
      (l.map MessageEntry.mk).map MessageEntry.data = l := by
    intro l
    induction l with
    | nil => rfl
    | cons a l ih => simp [ih]
  have q1 : MessageQueue.queued (MessageQueue.pushAll mq h ps) h = ps.map MessageEntry.mk := by
    rw [MessageQueue.queued_pushAll mq h ps hh hps, hq0, List.nil_append]
  constructor
  · intro hne
    have hq : MessageQueue.queued (MessageQueue.pushAll mq h ps) h ≠ [] := by
      rw [q1]
      cases ps with
      | nil => exact absurd rfl hne
      | cons a l => simp
    rw [MessageQueue.GetMessages_nonempty _ h data hq, q1, hmap]
    exact ⟨rfl, rfl⟩
  · intro hpx
    have hlen : px.length ≠ 0 := fun e => hpx (List.eq_nil_of_length_eq_zero e)
    have q2 : MessageQueue.queued
        (MessageQueue.pushAll
          (MessageQueue.PushFront (MessageQueue.pushAll mq h ps) h (some px) px.length).2
          h qs) h = (⟨px⟩ :: ps.map MessageEntry.mk) ++ qs.map MessageEntry.mk := by
      rw [MessageQueue.queued_pushAll _ h qs hh hqs,
        MessageQueue.PushFront_valid _ h px px.length hh hlen,
        MessageQueue.queued_set_self, q1, MessageQueue.MessageEntry_new_full]
    have hq : MessageQueue.queued
        (MessageQueue.pushAll
          (MessageQueue.PushFront (MessageQueue.pushAll mq h ps) h (some px) px.length).2
          h qs) h ≠ [] := by
      rw [q2]
      simp
    rw [MessageQueue.GetMessages_nonempty _ h data hq, q2]
    refine ⟨rfl, ?_⟩
    simp [hmap]

/-- Instance of C8: payloads `[1,2]`, `[3]`, then `PushFront` of `[9]`, then `[4]`, for
handle 5 of a new queue. -/
theorem MessageQueue.fifo_order_witness :
    (MessageQueue.GetMessages (MessageQueue.pushAll MessageQueue.new 5 [[1, 2], [3]]) 5 []).2.2
        = [1, 2, 3]
    ∧ (MessageQueue.GetMessages
          (MessageQueue.pushAll
            (MessageQueue.PushFront (MessageQueue.pushAll MessageQueue.new 5 [[1, 2], [3]])
              5 (some [9]) 1).2
            5 [[4]]) 5 []).2.2 = [9, 1, 2, 3, 4] :=
  ⟨((MessageQueue.fifo_order MessageQueue.new 5 [[1, 2], [3]] [[4]] [9] [] (by decide)
      (by decide) (by decide) (by decide)).1 (by decide)).2,
   ((MessageQueue.fifo_order MessageQueue.new 5 [[1, 2], [3]] [[4]] [9] [] (by decide)
      (by decide) (by decide) (by decide)).2 (by decide)).2⟩

/-- C9. `Push` and `PushFront` reject bad arguments: on a negative handle, a null
payload pointer or a zero length, each returns failure and leaves the whole queue
mapping unchanged. -/
theorem MessageQueue.reject_bad_arguments (mq : MessageQueue) (fd : Int)
    (data : Option (List Byte)) (len : Nat) (h : fd < 0 ∨ data = none ∨ len = 0) :
    MessageQueue.Push mq fd data len = (false, mq)
    ∧ MessageQueue.PushFront mq fd data len = (false, mq) := by
  cases data with
  | none => exact ⟨rfl, rfl⟩
  | some d =>
    have hc : fd < 0 ∨ len = 0 := by
      rcases h with h | h | h
      · exact Or.inl h
      · cases h
      · exact Or.inr h
    simp [MessageQueue.Push, MessageQueue.PushFront, hc]

/-- Instance of C9: a negative handle on a queue that holds data. -/
theorem MessageQueue.reject_bad_arguments_witness :
    MessageQueue.Push { m_queues := [(3, [⟨[1]⟩])] } (-1) (some [7]) 1
        = (false, { m_queues := [(3, [⟨[1]⟩])] })
    ∧ MessageQueue.PushFront { m_queues := [(3, [⟨[1]⟩])] } (-1) (some [7]) 1
        = (false, { m_queues := [(3, [⟨[1]⟩])] }) :=
  MessageQueue.reject_bad_arguments { m_queues := [(3, [⟨[1]⟩])] } (-1) (some [7]) 1
    (by decide)

/-- C10. `GetMessages(h)` returns failure exactly when nothing is queued for `h` (no
entry, or an empty queue), and then leaves the queue mapping and the output buffer
unchanged; when it succeeds it removes every payload queued for `h`: afterwards the
queue of `h` is empty, `HasMessages(h)` is false, `h` is not in `GetAllFds()`, a second
`GetMessages(h)` fails, and the queues of all other handles are unchanged. -/
theorem MessageQueue.getMessages_effect (mq : MessageQueue) (h : Int) (data : List Byte)
    (hwf : QueueMap.WF mq.m_queues) :
    ((MessageQueue.GetMessages mq h data).1 = false ↔ MessageQueue.NothingQueued mq h)
    ∧ ((MessageQueue.GetMessages mq h data).1 = false →
        (MessageQueue.GetMessages mq h data).2.1 = mq
        ∧ (MessageQueue.GetMessages mq h data).2.2 = data)
    ∧ ((MessageQueue.GetMessages mq h data).1 = true →
        QueueMap.find (MessageQueue.GetMessages mq h data).2.1.m_queues h = some []
        ∧ MessageQueue.HasMessages (MessageQueue.GetMessages mq h data).2.1 h = false
        ∧ h ∉ MessageQueue.GetAllFds (MessageQueue.GetMessages mq h data).2.1
        ∧ (∀ data2, (MessageQueue.GetMessages
              (MessageQueue.GetMessages mq h data).2.1 h data2).1 = false)
        ∧ ∀ fd, fd ≠ h →
            QueueMap.find (MessageQueue.GetMessages mq h data).2.1.m_queues fd
              = QueueMap.find mq.m_queues fd) := by
  by_cases hq : MessageQueue.queued mq h = []
  · rw [MessageQueue.GetMessages_empty mq h data hq]
    refine ⟨?_, ?_, ?_⟩
    · simp [MessageQueue.nothingQueued_iff, hq]
    · intro _
      exact ⟨rfl, rfl⟩
    · intro hc
      simp at hc
  · rw [MessageQueue.GetMessages_nonempty mq h data hq]
    have hq' : MessageQueue.queued { m_queues := QueueMap.set mq.m_queues h [] } h = [] :=
      MessageQueue.queued_set_self _ _ _
    have hhas : MessageQueue.HasMessages { m_queues := QueueMap.set mq.m_queues h [] } h
        = false := by
      cases hb : MessageQueue.HasMessages { m_queues := QueueMap.set mq.m_queues h [] } h with
      | false => rfl
      | true => exact absurd hq' ((MessageQueue.HasMessages_iff _ _).mp hb)
    refine ⟨?_, ?_, ?_⟩
    · simp [MessageQueue.nothingQueued_iff, hq]
    · intro hc
      simp at hc
    · intro _
      refine ⟨QueueMap.find_set_self _ _ _, hhas, ?_, ?_, ?_⟩
      · intro hmem
        have hwf' : QueueMap.WF
            (MessageQueue.mk (QueueMap.set mq.m_queues h [])).m_queues :=
          QueueMap.WF_set _ _ _ hwf
        rw [MessageQueue.mem_GetAllFds_iff _ hwf', hhas] at hmem
        exact absurd hmem (by decide)
      · intro data2
        rw [MessageQueue.GetMessages_empty _ h data2 hq']
      · intro fd hne
        exact QueueMap.find_set_other _ _ _ _ hne

/-- Instance of C10: taking the messages of handle 4 from a queue that also holds data
for handle 7. -/
theorem MessageQueue.getMessages_effect_witness :
    4 ∉ MessageQueue.GetAllFds
      (MessageQueue.GetMessages { m_queues := [(4, [⟨[1]⟩, ⟨[2, 3]⟩]), (7, [⟨[5]⟩])] } 4 []).2.1
    ∧ QueueMap.find
        (MessageQueue.GetMessages { m_queues := [(4, [⟨[1]⟩, ⟨[2, 3]⟩]), (7, [⟨[5]⟩])] }
          4 []).2.1.m_queues 7
        = QueueMap.find [(4, [⟨[1]⟩, ⟨[2, 3]⟩]), (7, [⟨[5]⟩])] 7 :=
  ⟨((MessageQueue.getMessages_effect
      { m_queues := [(4, [⟨[1]⟩, ⟨[2, 3]⟩]), (7, [⟨[5]⟩])] } 4 [] (by decide)).2.2
      (by decide)).2.2.1,
   ((MessageQueue.getMessages_effect
      { m_queues := [(4, [⟨[1]⟩, ⟨[2, 3]⟩]), (7, [⟨[5]⟩])] } 4 [] (by decide)).2.2
      (by decide)).2.2.2.2 7 (by decide)⟩

/-! ## Theorems: connection multiplexer -/

namespace RecvMap

theorem recv_find_set_self (m : RecvMap) (fd : Int) (b : List Byte) :
    find (set m fd b) fd = some b := by
  induction m with
  | nil => simp [set, find]
  | cons hd rest ih =>
    obtain ⟨k, b0⟩ := hd
    by_cases h1 : k = fd
    · simp [set, find, h1]
    · by_cases h2 : fd < k
      · simp [set, find, h1, h2]
      · simp [set, find, h1, h2, ih]

theorem recv_find_erase_self (m : RecvMap) (fd : Int) : find (erase m fd) fd = none := by
  induction m with
  | nil => rfl
  | cons hd rest ih =>
    obtain ⟨k, b0⟩ := hd
    by_cases h1 : k = fd
    · simpa [erase, List.filter, h1] using ih
    · simp only [erase] at ih ⊢
      simp only [List.filter, ne_eq, h1, not_false_eq_true, decide_True, find, if_false]
      exact ih

theorem index_fst_find (m : RecvMap) (fd : Int) :
    find (index m fd).1 fd = some (index m fd).2 := by
  unfold index
  cases h : find m fd with
  | none => simp [recv_find_set_self]
  | some b => simp [h]

theorem recv_index_snd (m : RecvMap) (fd : Int) : (index m fd).2 = (find m fd).getD [] := by
  unfold index
  cases find m fd <;> simp

end RecvMap

namespace QueueMap

/-- In a map with strictly ascending keys no element with key `fd` is left after the
erase of `fd`. -/
theorem find_erase_self (m : QueueMap) (fd : Int) (h : WF m) :
    find (erase m fd) fd = none := by
  induction m with
  | nil => rfl
  | cons hd rest ih =>
    obtain ⟨k0, q0⟩ := hd
    unfold WF at h
    simp only [List.map_cons, List.pairwise_cons] at h
    obtain ⟨hlt, hrest⟩ := h
    by_cases h1 : k0 = fd
    · subst h1
      simp only [erase, if_true]
      cases hf : find rest k0 with
      | none => rfl
      | some q =>
        have hm := mem_of_find rest k0 q hf
        have := hlt k0 (List.mem_map.mpr ⟨(k0, q), hm, rfl⟩)
        omega
    · simp only [erase, h1, if_false, find]
      exact ih hrest

end QueueMap

namespace EpollServer

/-- A `SendMessage` changes nothing but the outbound queue. -/
theorem SendMessage_snd (s : EpollServer) (fd : Int) (d : Option (List Byte)) (len : Nat) :
    ∃ q, (s.SendMessage fd d len).2 = { s with m_send_queue := q } := by
  unfold SendMessage
  split
  · exact ⟨s.m_send_queue, rfl⟩
  · exact ⟨_, rfl⟩

/-- The calls a callback body makes change nothing but the outbound queue. -/
theorem body_foldl (body : List SendCall) (s : EpollServer) :
    ∃ q, body.foldl (fun acc c => (acc.SendMessage c.client_fd c.data c.len).2) s
      = { s with m_send_queue := q } := by
  induction body generalizing s with
  | nil => exact ⟨s.m_send_queue, rfl⟩
  | cons c rest ih =>
    obtain ⟨q1, h1⟩ := SendMessage_snd s c.client_fd c.data c.len
    obtain ⟨q2, h2⟩ := ih { s with m_send_queue := q1 }
    refine ⟨q2, ?_⟩
    simp only [List.foldl_cons, h1, h2]

/-- A callback invocation records itself, uses up one script entry and changes nothing
else but the outbound queue. -/
theorem invoke_eq (s : EpollServer) (op : Op) :
    ∃ q, s.invoke op
      = { s with trace := s.trace ++ [op], callbacks := s.callbacks.tail,
                 m_send_queue := q } := by
  unfold invoke record
  cases hc : s.callbacks with
  | nil => exact ⟨s.m_send_queue, by simp [hc]⟩
  | cons body rest =>
    obtain ⟨q, hq⟩ := body_foldl body
      { s with trace := s.trace ++ [op], callbacks := rest }
    refine ⟨q, ?_⟩
    simp only [hq, List.tail_cons]

end EpollServer

namespace EpollServer

/-- The state in which `CloseConnection(fd)` reaches its last statement, the invocation
of the disconnect callback. -/
theorem CloseConnection_eq (s : EpollServer) (fd : Int) :
    s.CloseConnection fd =
      if s.m_on_disconnect then
        EpollServer.invoke
          { s with
            trace := s.trace ++ [Op.epoll_ctl_del fd, Op.close fd, Op.lock_recv,
              Op.recv_erase fd, Op.unlock_recv, Op.queue_clear fd],
            m_recv_buffers := s.m_recv_buffers.erase fd,
            m_send_queue := s.m_send_queue.Clear fd }
          (Op.on_disconnect fd)
      else
        { s with
          trace := s.trace ++ [Op.epoll_ctl_del fd, Op.close fd, Op.lock_recv,
            Op.recv_erase fd, Op.unlock_recv, Op.queue_clear fd],
          m_recv_buffers := s.m_recv_buffers.erase fd,
          m_send_queue := s.m_send_queue.Clear fd } := by
  simp [CloseConnection, RemoveFromEpoll, record]

/-- After `Clear(fd)` on a well-formed queue map nothing is queued for `fd`. -/
theorem find_Clear_self (mq : MessageQueue) (fd : Int) (h : QueueMap.WF mq.m_queues) :
    QueueMap.find (mq.Clear fd).m_queues fd = none := by
  unfold MessageQueue.Clear
  cases hf : QueueMap.find mq.m_queues fd with
  | none => simpa using hf
  | some q => exact QueueMap.find_erase_self _ _ h

/-- The close protocol leaves `m_running` as it is. -/
theorem CloseConnection_running (s : EpollServer) (fd : Int) :
    (s.CloseConnection fd).m_running = s.m_running := by
  rw [CloseConnection_eq]
  split
  · obtain ⟨q, hq⟩ := invoke_eq
      { s with
        trace := s.trace ++ [Op.epoll_ctl_del fd, Op.close fd, Op.lock_recv,
          Op.recv_erase fd, Op.unlock_recv, Op.queue_clear fd],
        m_recv_buffers := s.m_recv_buffers.erase fd,
        m_send_queue := s.m_send_queue.Clear fd } (Op.on_disconnect fd)
    rw [hq]
  · rfl

/-- What `SendMessage` does on a running server with a non-negative handle. -/
theorem SendMessage_running (s : EpollServer) (fd : Int) (d : Option (List Byte))
    (len : Nat) (hrun : s.m_running = true) (hfd : 0 ≤ fd) :
    s.SendMessage fd d len
      = ((s.m_send_queue.Push fd d len).1,
          { s with m_send_queue := (s.m_send_queue.Push fd d len).2 }) := by
  have h : ¬ fd < 0 := by omega
  simp [SendMessage, hrun, h]

end EpollServer

namespace EpollServer

/-- One round of the message loop when the parse fails: the loop ends. -/
theorem parseLoop_fail (fd : Int) (buf : List Byte) (s : EpollServer)
    (h : (TLVProtocol.ParseMessage s.host s.m_protocol buf TLVMessage.default).1 = false) :
    HandleRead.parseLoop fd buf s = (buf, s) := by
  rw [HandleRead.parseLoop]
  split
  · rename_i msg consumed heq
    rw [heq] at h
    cases h
  · rfl

/-- One round of the message loop when the parse succeeds: the callback is invoked with
the message, the consumed bytes are erased and the loop goes on. -/
theorem parseLoop_ok (fd : Int) (buf : List Byte) (s : EpollServer) (msg : TLVMessage)
    (consumed : Nat)
    (h : TLVProtocol.ParseMessage s.host s.m_protocol buf TLVMessage.default
      = (true, msg, consumed)) :
    HandleRead.parseLoop fd buf s
      = HandleRead.parseLoop fd (buf.drop consumed)
          (if s.m_on_message then s.invoke (Op.on_message fd msg) else s) := by
  rw [HandleRead.parseLoop]
  split
  · rename_i msg' consumed' heq
    rw [h] at heq
    simp only [Prod.mk.injEq, true_and] at heq
    obtain ⟨h1, h2⟩ := heq
    subst h1 h2
    rfl
  · rename_i m' c' heq
    rw [h] at heq
    cases heq

end EpollServer

namespace EpollServer

/-- The bytes of a well-formed message on the wire: big-endian header, then the value. -/
theorem encode_eq (host : ByteOrder) (m : TLVMessage) (hm : m.WellFormed) :
    encode host m = wireBytes ByteOrder.BigEndian 2 m.type
      ++ wireBytes ByteOrder.BigEndian 4 m.length ++ m.value := by
  obtain ⟨_, hl, hv⟩ := hm
  have h := TLVProtocol.SerializeMessage_eq host ByteOrder.BigEndian m [] hl (by omega)
  have e : m.value.take m.length = m.value := by rw [← hv, List.take_length]
  unfold encode
  rw [TLVProtocol.new_eq_codec, h, e]

theorem encode_length (host : ByteOrder) (m : TLVMessage) (hm : m.WellFormed) :
    (encode host m).length = 6 + m.length := by
  rw [encode_eq host m hm]
  simp only [List.length_append, wireBytes_length, hm.2.2]

/-- Parsing a buffer that starts with the frame of a well-formed message returns it. -/
theorem parse_frame (host hc : ByteOrder) (m : TLVMessage) (hm : m.WellFormed)
    (rest : List Byte) (msg : TLVMessage) :
    TLVProtocol.ParseMessage host (TLVProtocol.new host) (encode hc m ++ rest) msg
      = (true, m, 6 + m.length) := by
  rw [encode_eq hc m hm, TLVProtocol.new_eq_codec]
  exact TLVProtocol.ParseMessage_wire_append host ByteOrder.BigEndian m rest msg hm.1 hm.2.1
    hm.2.2

/-- Parsing a buffer that holds only a proper front part of a frame fails. -/
theorem parse_partial (host hc : ByteOrder) (m : TLVMessage) (hm : m.WellFormed)
    (B R X : List Byte) (msg : TLVMessage) (hB : B ++ R = encode hc m ++ X)
    (hlt : B.length < (encode hc m).length) :
    (TLVProtocol.ParseMessage host (TLVProtocol.new host) B msg).1 = false := by
  rw [TLVProtocol.new_eq_codec, TLVProtocol.ParseMessage_eq]
  by_cases h6 : B.length < 6
  · simp [h6]
  · have hlen := encode_length hc m hm
    rw [encode_eq hc m hm] at hB
    have w2 := wireBytes_length ByteOrder.BigEndian 2 m.type
    have w4 := wireBytes_length ByteOrder.BigEndian 4 m.length
    have v4 : wireValue ByteOrder.BigEndian (wireBytes ByteOrder.BigEndian 4 m.length)
        = m.length :=
      wireValue_wireBytes ByteOrder.BigEndian 4 m.length
        (by have := hm.2.1; norm_num at this ⊢; exact this)
    generalize wireBytes ByteOrder.BigEndian 2 m.type = H2 at *
    generalize wireBytes ByteOrder.BigEndian 4 m.length = H4 at *
    have t6 : B.take 6 = H2 ++ H4 := by
      have h1 : (B ++ R).take 6 = B.take 6 := List.take_append_of_le_length (by omega)
      have h2 : (H2 ++ H4 ++ m.value ++ X).take 6 = H2 ++ H4 := by
        have e : (6 : Nat) = (H2 ++ H4).length := by simp [w2, w4]
        rw [List.append_assoc (H2 ++ H4), e, List.take_left]
      rw [← h1, hB, h2]
    have t4 : (B.drop 2).take 4 = H4 := by
      have h1 : (B.drop 2).take 4 = (B.take 6).drop 2 := by
        rw [List.drop_take]
      rw [h1, t6, ← w2, List.drop_left]
    rw [t4, v4]
    have hlt' : B.length < 6 + m.length := by omega
    simp [h6, hlt']

/-- The message loop on a buffer that is a front part of a sequence of frames: it hands
the messages whose frames are complete to the callback, in order, and leaves the bytes of
the incomplete frame that follows them. -/
theorem parseLoop_frames (hc : ByteOrder) (fd : Int) (todo : List TLVMessage)
    (hwf : ∀ m ∈ todo, m.WellFormed) :
    ∀ (B R : List Byte) (s : EpollServer), s.m_protocol = TLVProtocol.new s.host →
      s.m_on_message = true → B ++ R = (todo.map (encode hc)).flatten →
      ∃ done rest P q cbs, todo = done ++ rest
        ∧ HandleRead.parseLoop fd B s
            = (P, { s with trace := s.trace ++ done.map (Op.on_message fd),
                           callbacks := cbs, m_send_queue := q })
        ∧ P ++ R = (rest.map (encode hc)).flatten
        ∧ (∀ m, rest.head? = some m → P.length < (encode hc m).length) := by
  induction todo with
  | nil =>
    intro B R s _ _ hB
    have hBnil : B = [] := by
      simp only [List.map_nil, List.flatten_nil, List.append_eq_nil] at hB
      exact hB.1
    subst hBnil
    refine ⟨[], [], [], s.m_send_queue, s.callbacks, rfl, ?_, by simpa using hB, ?_⟩
    · rw [parseLoop_fail fd [] s (by
        unfold TLVProtocol.ParseMessage
        simp [TLVProtocol.TLV_HEADER_SIZE])]
      simp
    · intro m hm
      simp at hm
  | cons m ms ih =>
    intro B R s hp hon hB
    have hm : m.WellFormed := hwf m (List.mem_cons_self _ _)
    have hms : ∀ x ∈ ms, x.WellFormed := fun x hx => hwf x (List.mem_cons_of_mem _ hx)
    simp only [List.map_cons, List.flatten_cons] at hB
    by_cases hlt : B.length < (encode hc m).length
    · have hfail := parse_partial s.host hc m hm B R _ TLVMessage.default hB hlt
      rw [← hp] at hfail
      refine ⟨[], m :: ms, B, s.m_send_queue, s.callbacks, rfl, ?_, ?_, ?_⟩
      · rw [parseLoop_fail fd B s hfail]
        simp
      · simpa using hB
      · intro x hx
        simp only [List.head?_cons, Option.some.injEq] at hx
        subst hx
        exact hlt
    · have hle : (encode hc m).length ≤ B.length := by omega
      have hBsplit : B = encode hc m ++ B.drop (encode hc m).length := by
        have h1 : (B ++ R).take (encode hc m).length = B.take (encode hc m).length :=
          List.take_append_of_le_length hle
        rw [hB, List.take_left] at h1
        conv_lhs => rw [← List.take_append_drop (encode hc m).length B, ← h1]
      have hB' : B.drop (encode hc m).length ++ R = (ms.map (encode hc)).flatten := by
        have h1 : (B ++ R).drop (encode hc m).length
            = B.drop (encode hc m).length ++ R :=
          List.drop_append_of_le_length hle
        rw [hB, List.drop_left] at h1
        exact h1.symm
      have hparse := parse_frame s.host hc m hm (B.drop (encode hc m).length)
        TLVMessage.default
      rw [← hBsplit, ← hp] at hparse
      obtain ⟨q1, hq1⟩ := invoke_eq s (Op.on_message fd m)
      have hstep := parseLoop_ok fd B s m (6 + m.length) hparse
      rw [hon, if_pos rfl, hq1, ← encode_length hc m hm] at hstep
      obtain ⟨done, rest, P, q, cbs, hsplit, hloop, hP, hhead⟩ :=
        ih hms (B.drop (encode hc m).length) R
          { s with trace := s.trace ++ [Op.on_message fd m], callbacks := s.callbacks.tail,
                   m_send_queue := q1 } hp hon hB'
      refine ⟨m :: done, rest, P, q, cbs, by rw [hsplit]; rfl, ?_, hP, hhead⟩
      rw [hstep, hloop]
      simp

end EpollServer

namespace EpollServer

theorem delivered_append (a b : List Op) :
    delivered (a ++ b) = delivered a ++ delivered b := by
  induction a with
  | nil => rfl
  | cons op rest ih => cases op <;> simp [delivered, ih]

theorem delivered_on_message (fd : Int) (l : List TLVMessage) :
    delivered (l.map (Op.on_message fd)) = l.map (fun m => (fd, m)) := by
  induction l with
  | nil => rfl
  | cons m rest ih => simp [delivered, ih]

/-- The step of `HandleRead` for one chunk, when the receive buffer followed by the chunk
is a front part of a sequence of frames of well-formed messages: the messages whose frames
are complete are handed to the callback in order, and the receive buffer keeps the bytes
of the incomplete frame that follows them. -/
theorem onData_frames (hc : ByteOrder) (fd : Int) (todo : List TLVMessage)
    (hwf : ∀ m ∈ todo, m.WellFormed) (chunk R : List Byte) (s : EpollServer)
    (hp : s.m_protocol = TLVProtocol.new s.host) (hon : s.m_on_message = true)
    (hB : s.bufferOf fd ++ chunk ++ R = (todo.map (encode hc)).flatten) :
    ∃ done rest, todo = done ++ rest
      ∧ (HandleRead.onData s fd chunk).m_protocol
          = TLVProtocol.new (HandleRead.onData s fd chunk).host
      ∧ (HandleRead.onData s fd chunk).m_on_message = true
      ∧ (HandleRead.onData s fd chunk).m_running = s.m_running
      ∧ (HandleRead.onData s fd chunk).reads = s.reads
      ∧ (HandleRead.onData s fd chunk).bufferOf fd ++ R = (rest.map (encode hc)).flatten
      ∧ (∀ m, rest.head? = some m →
          ((HandleRead.onData s fd chunk).bufferOf fd).length < (encode hc m).length)
      ∧ delivered (HandleRead.onData s fd chunk).trace
          = delivered s.trace ++ done.map (fun m => (fd, m)) := by
  have hidx : (RecvMap.index s.m_recv_buffers fd).2 = s.bufferOf fd :=
    RecvMap.recv_index_snd _ _
  obtain ⟨done, rest, P, q, cbs, hsplit, hloop, hP, hhead⟩ :=
    parseLoop_frames hc fd todo hwf (s.bufferOf fd ++ chunk) R
      { s with trace := s.trace ++ [Op.lock_recv],
               m_recv_buffers := (RecvMap.index s.m_recv_buffers fd).1 } hp hon hB
  have hdata : HandleRead.onData s fd chunk
      = { s with trace := s.trace ++ [Op.lock_recv] ++ done.map (Op.on_message fd)
                    ++ [Op.unlock_recv],
                 callbacks := cbs, m_send_queue := q,
                 m_recv_buffers :=
                   RecvMap.set (RecvMap.index s.m_recv_buffers fd).1 fd P } := by
    unfold HandleRead.onData record
    simp only [hidx]
    rw [hloop]
  have hbuf : (HandleRead.onData s fd chunk).bufferOf fd = P := by
    rw [hdata]
    simp [bufferOf, RecvMap.recv_find_set_self]
  rw [hbuf]
  refine ⟨done, rest, hsplit, ?_, ?_, ?_, ?_, hP, hhead, ?_⟩
  · rw [hdata]
    exact hp
  · rw [hdata]
    exact hon
  · rw [hdata]
  · rw [hdata]
  · rw [hdata]
    simp only [delivered_append, delivered_on_message]
    simp [delivered]

/-- A sequence of frames of which fewer bytes than the first frame has are there holds no
frame at all. -/
theorem frames_short (hc : ByteOrder) (todo : List TLVMessage) (P : List Byte)
    (hP : P = (todo.map (encode hc)).flatten)
    (hhead : ∀ m, todo.head? = some m → P.length < (encode hc m).length) :
    todo = [] ∧ P = [] := by
  cases todo with
  | nil => exact ⟨rfl, by simpa using hP⟩
  | cons m ms =>
    have h := hhead m rfl
    rw [hP] at h
    simp only [List.map_cons, List.flatten_cons, List.length_append] at h
    omega

/-- Feeding the chunks of a stream of frames, one after the other, to the step of
`HandleRead`. -/
theorem foldl_onData (hc : ByteOrder) (fd : Int) (chunks : List (List Byte)) :
    ∀ (todo : List TLVMessage) (s : EpollServer), (∀ m ∈ todo, m.WellFormed) →
      s.m_protocol = TLVProtocol.new s.host → s.m_on_message = true →
      s.bufferOf fd ++ chunks.flatten = (todo.map (encode hc)).flatten →
      (∀ m, todo.head? = some m → (s.bufferOf fd).length < (encode hc m).length) →
      delivered (chunks.foldl (fun acc c => HandleRead.onData acc fd c) s).trace
          = delivered s.trace ++ todo.map (fun m => (fd, m))
      ∧ (chunks.foldl (fun acc c => HandleRead.onData acc fd c) s).bufferOf fd = [] := by
  induction chunks with
  | nil =>
    intro todo s _ _ _ hB hhead
    simp only [List.flatten_nil, List.append_nil] at hB
    obtain ⟨h1, h2⟩ := frames_short hc todo _ hB hhead
    subst h1
    simp [h2]
  | cons c cs ih =>
    intro todo s hwf hp hon hB hhead
    simp only [List.flatten_cons, ← List.append_assoc] at hB
    obtain ⟨done, rest, hsplit, hp1, hon1, _, _, hB1, hhead1, hdel⟩ :=
      onData_frames hc fd todo hwf c cs.flatten s hp hon hB
    have hwf1 : ∀ m ∈ rest, m.WellFormed := by
      intro m hm
      exact hwf m (by rw [hsplit]; exact List.mem_append_right _ hm)
    obtain ⟨h1, h2⟩ := ih rest (HandleRead.onData s fd c) hwf1 hp1 hon1 hB1 hhead1
    refine ⟨?_, h2⟩
    simp only [List.foldl_cons]
    rw [h1, hdel, hsplit]
    simp

end EpollServer

namespace EpollServer

theorem written_append (fd : Int) (a b : List Op) :
    written fd (a ++ b) = written fd a ++ written fd b := by
  induction a with
  | nil => rfl
  | cons op rest ih =>
    cases op with
    | write fd' buf r =>
      cases r with
      | accepted n =>
        by_cases h : fd' = fd
        · simp [written, h, ih]
        · simp [written, h, ih]
      | wouldBlock => simp [written, ih]
      | error => simp [written, ih]
    | _ => simp [written, ih]

/-- The send loop when the descriptor accepts `ns.sum` further bytes, fewer than are left,
in successive writes and the write after them would block: the unwritten rest goes back to
the front of the queue and read and write interest is registered. -/
theorem sendLoop_short (fd : Int) (D : List Byte) (rest : List WriteResult)
    (hD : D.length < 2 ^ 64) (ns : List Nat) :
    ∀ (t : Nat) (s : EpollServer), t + ns.sum < D.length →
      ∃ ws, HandleWrite.sendLoop fd D (ns.map WriteResult.accepted
            ++ WriteResult.wouldBlock :: rest) t s
          = { s with
              writes := rest,
              trace := s.trace ++ ws
                ++ [Op.write fd (D.drop (t + ns.sum)) WriteResult.wouldBlock,
                    Op.epoll_ctl_mod fd (EPOLLIN ||| EPOLLOUT ||| EPOLLET)],
              m_send_queue := (s.m_send_queue.PushFront fd (some (D.drop (t + ns.sum)))
                (D.drop (t + ns.sum)).length).2 }
        ∧ (∀ op ∈ ws, ∃ buf n, op = Op.write fd buf (WriteResult.accepted n))
        ∧ written fd ws = (D.drop t).take ns.sum := by
  induction ns with
  | nil =>
    intro t s ht
    simp only [List.sum_nil, Nat.add_zero] at ht ⊢
    refine ⟨[], ?_, by simp, by simp [written]⟩
    rw [HandleWrite.sendLoop.eq_def]
    simp [ht, ModifyEpoll, record]
  | cons n ns ih =>
    intro t s ht
    simp only [List.sum_cons] at ht ⊢
    have ht0 : t < D.length := by omega
    have hsz : size_t (t + n) = t + n := by
      unfold size_t
      apply Nat.mod_eq_of_lt
      omega
    obtain ⟨ws, hloop, hops, hwr⟩ := ih (t + n)
      { s with writes := ns.map WriteResult.accepted ++ WriteResult.wouldBlock :: rest,
               trace := s.trace ++ [Op.write fd (D.drop t) (WriteResult.accepted n)] }
      (by omega)
    refine ⟨Op.write fd (D.drop t) (WriteResult.accepted n) :: ws, ?_, ?_, ?_⟩
    · rw [HandleWrite.sendLoop.eq_def]
      simp only [List.map_cons, List.cons_append, ht0, if_true, record, hsz]
      rw [hloop]
      simp [Nat.add_assoc]
    · intro op hop
      rcases List.mem_cons.mp hop with h | h
      · exact ⟨_, _, h⟩
      · exact hops op h
    · simp only [written, if_true, hwr]
      rw [List.take_add, List.drop_drop]

end EpollServer

/-! ## Claims about the connection multiplexer -/

/-- C11 fails on the code: after the close protocol has run for handle 5 of a running
server, `SendMessage(5, bytes)` with a one-byte payload returns success and the payload
is queued for the closed handle 5; when the next accepted connection is given the
descriptor number 5, `HandleWrite(5)` writes that payload to the new client. -/
theorem EpollServer.send_to_closed_handle :
    ((EpollServer.sample_connected.CloseConnection 5).SendMessage 5 (some [7]) 1).1 = true
    ∧ MessageQueue.queued
        ((EpollServer.sample_connected.CloseConnection 5).SendMessage 5 (some [7]) 1).2.m_send_queue
        5 = [{ data := [7] }]
    ∧ (EpollServer.HandleWrite
        (EpollServer.AcceptConnection
          { ((EpollServer.sample_connected.CloseConnection 5).SendMessage 5 (some [7]) 1).2 with
            accepts := [AcceptResult.conn 5 true true]
            writes := [WriteResult.accepted 1] }) 5).trace
      = [Op.epoll_ctl_del 5, Op.close 5, Op.lock_recv, Op.recv_erase 5, Op.unlock_recv,
         Op.queue_clear 5, Op.on_disconnect 5,
         Op.accept 3 (AcceptResult.conn 5 true true), Op.set_nonblocking 5,
         Op.epoll_ctl_add 5 (EPOLLIN ||| EPOLLET), Op.lock_recv, Op.unlock_recv,
         Op.on_connect 5, Op.accept 3 AcceptResult.wouldBlock,
         Op.write 5 [7] (WriteResult.accepted 1),
         Op.epoll_ctl_mod 5 (EPOLLIN ||| EPOLLET)] := by
  decide

/-- C12. Close protocol order: `CloseConnection(h)` performs, in this order, the
deregistration of `h` from the readiness facility, the close of the descriptor, the erase
of the receive buffer of `h` (under the receive-buffer lock), the clear of the outbound
queue of `h` and, when a disconnect callback is registered, one invocation of it as the
last operation; the state in which the callback is invoked has no receive buffer and no
outbound queue for `h`. -/
theorem EpollServer.close_protocol_order (s : EpollServer) (h : Int)
    (hwf : QueueMap.WF s.m_send_queue.m_queues) :
    (s.CloseConnection h).trace
        = s.trace ++ [Op.epoll_ctl_del h, Op.close h, Op.lock_recv, Op.recv_erase h,
            Op.unlock_recv, Op.queue_clear h]
          ++ (if s.m_on_disconnect then [Op.on_disconnect h] else [])
    ∧ ∃ s1 : EpollServer,
        s1.trace = s.trace ++ [Op.epoll_ctl_del h, Op.close h, Op.lock_recv,
          Op.recv_erase h, Op.unlock_recv, Op.queue_clear h]
        ∧ RecvMap.find s1.m_recv_buffers h = none
        ∧ QueueMap.find s1.m_send_queue.m_queues h = none
        ∧ MessageQueue.HasMessages s1.m_send_queue h = false
        ∧ s.CloseConnection h
            = if s.m_on_disconnect then s1.invoke (Op.on_disconnect h) else s1 := by
  constructor
  · rw [EpollServer.CloseConnection_eq]
    split
    · obtain ⟨q, hq⟩ := EpollServer.invoke_eq
        { s with
          trace := s.trace ++ [Op.epoll_ctl_del h, Op.close h, Op.lock_recv,
            Op.recv_erase h, Op.unlock_recv, Op.queue_clear h],
          m_recv_buffers := s.m_recv_buffers.erase h,
          m_send_queue := s.m_send_queue.Clear h } (Op.on_disconnect h)
      rw [hq]
    · simp
  · refine ⟨{ s with
        trace := s.trace ++ [Op.epoll_ctl_del h, Op.close h, Op.lock_recv,
          Op.recv_erase h, Op.unlock_recv, Op.queue_clear h],
        m_recv_buffers := s.m_recv_buffers.erase h,
        m_send_queue := s.m_send_queue.Clear h }, rfl, RecvMap.recv_find_erase_self _ _,
      EpollServer.find_Clear_self _ _ hwf, ?_, EpollServer.CloseConnection_eq s h⟩
    simp [MessageQueue.HasMessages, EpollServer.find_Clear_self _ _ hwf]

/-- Instance of C12: the close of handle 5 of the sample server. -/
theorem EpollServer.close_protocol_order_witness :
    (EpollServer.sample_connected.CloseConnection 5).trace
      = EpollServer.sample_connected.trace
          ++ [Op.epoll_ctl_del 5, Op.close 5, Op.lock_recv, Op.recv_erase 5,
            Op.unlock_recv, Op.queue_clear 5]
          ++ (if EpollServer.sample_connected.m_on_disconnect then [Op.on_disconnect 5]
              else []) :=
  (EpollServer.close_protocol_order EpollServer.sample_connected 5 (by decide)).1

/-- C13 fails on the code: for a ready event with both `EPOLLIN` and `EPOLLOUT` on
handle 5 whose `read` reports the end of the stream, the loop body runs the close
protocol in `HandleRead` and then still runs `HandleWrite` on the handle, which changes
its readiness registration. -/
theorem EpollServer.use_after_teardown :
    (EpollServer.EpollLoop.handleEvent EpollServer.sample_peer_closed 5
        (EPOLLIN ||| EPOLLOUT)).trace
      = [Op.read 5 (ReadResult.bytes []),
         Op.epoll_ctl_del 5, Op.close 5, Op.lock_recv, Op.recv_erase 5, Op.unlock_recv,
         Op.queue_clear 5, Op.on_disconnect 5,
         Op.epoll_ctl_mod 5 (EPOLLIN ||| EPOLLET)] := by
  decide

/-- C14 fails on the code: when `HandleRead` on handle 5 reads the frame of one message,
the message callback is invoked after the receive-buffer lock is taken and before it is
released. -/
theorem EpollServer.callback_under_lock :
    (EpollServer.sample_frame_arrives.HandleRead 5).trace
      = [Op.read 5 (ReadResult.bytes [0, 1, 0, 0, 0, 5, 104, 101, 108, 108, 111]),
         Op.lock_recv,
         Op.on_message 5 { type := 1, length := 5, value := [104, 101, 108, 108, 111] },
         Op.unlock_recv,
         Op.read 5 ReadResult.wouldBlock] := by
  have hp1 : TLVProtocol.ParseMessage ByteOrder.LittleEndian
      (TLVProtocol.new ByteOrder.LittleEndian)
      [0, 1, 0, 0, 0, 5, 104, 101, 108, 108, 111] TLVMessage.default
      = (true, { type := 1, length := 5, value := [104, 101, 108, 108, 111] }, 11) := by
    decide
  have hp2 : (TLVProtocol.ParseMessage ByteOrder.LittleEndian
      (TLVProtocol.new ByteOrder.LittleEndian) [] TLVMessage.default).1 = false := by
    decide
  simp only [EpollServer.HandleRead, EpollServer.sample_frame_arrives,
    EpollServer.sample_connected, EpollServer.HandleRead.loop, EpollServer.HandleRead.onData,
    EpollServer.record, RecvMap.index, RecvMap.find]
  simp only [Bool.not_true, Bool.false_eq_true, if_false, if_true, List.length_cons,
    List.length_nil, List.nil_append, Nat.reduceAdd, Nat.reduceEqDiff]
  rw [EpollServer.parseLoop_ok 5 _ _ _ _ hp1]
  simp only [if_true, List.drop_succ_cons, List.drop_zero, List.drop_nil]
  rw [EpollServer.parseLoop_fail 5 _ _ hp2]
  rfl

namespace EpollServer

/-- The read loop of `HandleRead` when the reads deliver the chunks of a stream of frames
and the read after them would block. -/
theorem loop_frames (hc : ByteOrder) (fd : Int) (more : List ReadResult)
    (chunks : List (List Byte)) :
    ∀ (todo : List TLVMessage) (s : EpollServer), (∀ m ∈ todo, m.WellFormed) →
      s.m_protocol = TLVProtocol.new s.host → s.m_on_message = true →
      s.m_running = true → (∀ c ∈ chunks, c ≠ []) →
      s.bufferOf fd ++ chunks.flatten = (todo.map (encode hc)).flatten →
      (∀ m, todo.head? = some m → (s.bufferOf fd).length < (encode hc m).length) →
      delivered (HandleRead.loop fd
          (chunks.map ReadResult.bytes ++ ReadResult.wouldBlock :: more) s).trace
          = delivered s.trace ++ todo.map (fun m => (fd, m))
      ∧ (HandleRead.loop fd
          (chunks.map ReadResult.bytes ++ ReadResult.wouldBlock :: more) s).bufferOf fd = []
      ∧ (HandleRead.loop fd
          (chunks.map ReadResult.bytes ++ ReadResult.wouldBlock :: more) s).reads = more := by
  induction chunks with
  | nil =>
    intro todo s _ _ _ hrun _ hB hhead
    simp only [List.flatten_nil, List.append_nil] at hB
    obtain ⟨h1, h2⟩ := frames_short hc todo _ hB hhead
    subst h1
    simp only [List.map_nil, List.nil_append, HandleRead.loop, hrun, Bool.not_true,
      Bool.false_eq_true, if_false, record, List.append_nil]
    refine ⟨?_, h2, trivial⟩
    rw [delivered_append]
    simp [delivered]
  | cons c cs ih =>
    intro todo s hwf hp hon hrun hne hB hhead
    have hc0 : c.length ≠ 0 := by
      have := hne c (List.mem_cons_self _ _)
      intro h0
      exact this (List.eq_nil_of_length_eq_zero h0)
    have hne' : ∀ x ∈ cs, x ≠ [] := fun x hx => hne x (List.mem_cons_of_mem _ hx)
    simp only [List.flatten_cons, ← List.append_assoc] at hB
    obtain ⟨done, rest, hsplit, hp1, hon1, hrun1, _, hB1, hhead1, hdel⟩ :=
      onData_frames hc fd todo hwf c cs.flatten
        { s with reads := cs.map ReadResult.bytes ++ ReadResult.wouldBlock :: more,
                 trace := s.trace ++ [Op.read fd (ReadResult.bytes c)] } hp hon hB
    have hwf1 : ∀ m ∈ rest, m.WellFormed := by
      intro m hm
      exact hwf m (by rw [hsplit]; exact List.mem_append_right _ hm)
    obtain ⟨h1, h2, h3⟩ := ih rest _ hwf1 hp1 hon1 (hrun1.trans hrun) hne' hB1 hhead1
    have hstep : HandleRead.loop fd
        ((c :: cs).map ReadResult.bytes ++ ReadResult.wouldBlock :: more) s
        = HandleRead.loop fd (cs.map ReadResult.bytes ++ ReadResult.wouldBlock :: more)
            (HandleRead.onData
              { s with reads := cs.map ReadResult.bytes ++ ReadResult.wouldBlock :: more,
                       trace := s.trace ++ [Op.read fd (ReadResult.bytes c)] } fd c) := by
      simp only [List.map_cons, List.cons_append, HandleRead.loop, hrun, Bool.not_true,
        Bool.false_eq_true, if_false, hc0, record]
      rfl
    rw [hstep]
    refine ⟨?_, h2, h3⟩
    rw [h1, hdel, hsplit, delivered_append]
    simp [delivered]

end EpollServer

/-- C15. Streaming reassembly: for well-formed messages `m1..mn` and every way of cutting
the byte stream of their frames into chunks, starting from an empty receive buffer and
applying the step of the read handler (append the chunk, then parse and erase the
consumed bytes until the parse fails) to each chunk in order hands exactly `m1, ..., mn`,
in that order, to the message callback and leaves the receive buffer empty; the same
holds for `HandleRead` itself when its reads return those (non-empty) chunks and then
would block. Each step is a total function, so it terminates. -/
theorem EpollServer.streaming_reassembly (s : EpollServer) (fd : Int) (hc : ByteOrder)
    (msgs : List TLVMessage) (chunks : List (List Byte)) (more : List ReadResult)
    (hp : s.m_protocol = TLVProtocol.new s.host) (hon : s.m_on_message = true)
    (hbuf : s.bufferOf fd = []) (hwf : ∀ m ∈ msgs, m.WellFormed)
    (hne : ∀ c ∈ chunks, c ≠ [])
    (hcut : chunks.flatten = (msgs.map (EpollServer.encode hc)).flatten) :
    (EpollServer.delivered
        (chunks.foldl (fun acc c => EpollServer.HandleRead.onData acc fd c) s).trace
      = EpollServer.delivered s.trace ++ msgs.map (fun m => (fd, m))
      ∧ (chunks.foldl (fun acc c => EpollServer.HandleRead.onData acc fd c) s).bufferOf fd
          = [])
    ∧ (s.m_running = true →
        s.reads = chunks.map ReadResult.bytes ++ ReadResult.wouldBlock :: more →
        EpollServer.delivered (s.HandleRead fd).trace
          = EpollServer.delivered s.trace ++ msgs.map (fun m => (fd, m))
        ∧ (s.HandleRead fd).bufferOf fd = []
        ∧ (s.HandleRead fd).reads = more) := by
  have hB : s.bufferOf fd ++ chunks.flatten = (msgs.map (EpollServer.encode hc)).flatten := by
    rw [hbuf, List.nil_append, hcut]
  have hhead : ∀ m, msgs.head? = some m →
      (s.bufferOf fd).length < (EpollServer.encode hc m).length := by
    intro m hm
    have hmem : m ∈ msgs := by
      cases msgs with
      | nil => simp at hm
      | cons a l =>
        simp only [List.head?_cons, Option.some.injEq] at hm
        subst hm
        exact List.mem_cons_self _ _
    rw [hbuf, EpollServer.encode_length hc m (hwf m hmem)]
    simp
  constructor
  · exact EpollServer.foldl_onData hc fd chunks msgs s hwf hp hon hB hhead
  · intro hrun hreads
    unfold EpollServer.HandleRead
    rw [hreads]
    exact EpollServer.loop_frames hc fd more chunks msgs s hwf hp hon hrun hne hB hhead

/-- Instance of C15: the frames of the messages (1, "hi") and (2, "") cut into three
chunks, the second of which spans the frame boundary. -/
theorem EpollServer.streaming_reassembly_witness :
    EpollServer.delivered
        ([[0, 1, 0, 0], [0, 2, 104, 105, 0, 2, 0], [0, 0, 0]].foldl
          (fun acc c => EpollServer.HandleRead.onData acc 5 c)
          EpollServer.sample_connected).trace
      = EpollServer.delivered EpollServer.sample_connected.trace
          ++ [{ type := 1, length := 2, value := [104, 105] },
              { type := 2, length := 0, value := [] }].map (fun m => (5, m))
    ∧ ([[0, 1, 0, 0], [0, 2, 104, 105, 0, 2, 0], [0, 0, 0]].foldl
          (fun acc c => EpollServer.HandleRead.onData acc 5 c)
          EpollServer.sample_connected).bufferOf 5 = [] :=
  (EpollServer.streaming_reassembly EpollServer.sample_connected 5 ByteOrder.BigEndian
    [{ type := 1, length := 2, value := [104, 105] }, { type := 2, length := 0, value := [] }]
    [[0, 1, 0, 0], [0, 2, 104, 105, 0, 2, 0], [0, 0, 0]] []
    (by decide) (by decide) (by decide) (by decide) (by decide) (by decide)).1

/-- The send loop entered with any outbound queue `q1` (what `GetMessages` left and what
has been pushed since), when the descriptor accepts `ns.sum` bytes, fewer than `D` has,
and the next write would block: the unwritten rest of `D` becomes the front entry of the
queue of `h`, ahead of every entry that is queued for `h` at that time, and the queues of
the other handles are as they were. -/
theorem EpollServer.sendLoop_requeue (s : EpollServer) (h : Int) (D : List Byte)
    (ns : List Nat) (rest : List WriteResult) (q1 : MessageQueue) (hh : 0 ≤ h)
    (hlen : D.length < 2 ^ 64) (hk : ns.sum < D.length)
    (hw : s.writes = ns.map WriteResult.accepted ++ WriteResult.wouldBlock :: rest) :
    MessageQueue.queued
        (EpollServer.HandleWrite.sendLoop h D s.writes 0
          { s with m_send_queue := q1 }).m_send_queue h
      = { data := D.drop ns.sum } :: MessageQueue.queued q1 h
    ∧ (∀ fd, fd ≠ h →
        QueueMap.find (EpollServer.HandleWrite.sendLoop h D s.writes 0
          { s with m_send_queue := q1 }).m_send_queue.m_queues fd
          = QueueMap.find q1.m_queues fd)
    ∧ (∃ ws, (EpollServer.HandleWrite.sendLoop h D s.writes 0
          { s with m_send_queue := q1 }).trace
          = s.trace ++ ws ++ [Op.write h (D.drop ns.sum) WriteResult.wouldBlock,
              Op.epoll_ctl_mod h (EPOLLIN ||| EPOLLOUT ||| EPOLLET)]
        ∧ (∀ op ∈ ws, ∃ buf n, op = Op.write h buf (WriteResult.accepted n))
        ∧ EpollServer.written h ws = D.take ns.sum)
    ∧ (∀ (ps : List (List Byte)) (data : List Byte), (∀ p ∈ ps, p ≠ []) →
        (MessageQueue.GetMessages
            (MessageQueue.pushAll (EpollServer.HandleWrite.sendLoop h D s.writes 0
              { s with m_send_queue := q1 }).m_send_queue h ps) h data).1 = true
        ∧ (MessageQueue.GetMessages
            (MessageQueue.pushAll (EpollServer.HandleWrite.sendLoop h D s.writes 0
              { s with m_send_queue := q1 }).m_send_queue h ps) h data).2.2
          = D.drop ns.sum ++ ((MessageQueue.queued q1 h).map MessageEntry.data).flatten
              ++ ps.flatten) := by
  obtain ⟨ws, hloop, hops, hwr⟩ := EpollServer.sendLoop_short h D rest hlen ns 0
    { s with m_send_queue := q1 } (by omega)
  simp only [hw, Nat.zero_add] at hloop ⊢
  rw [hloop]
  have hdrop : (D.drop ns.sum).length ≠ 0 := by
    rw [List.length_drop]
    omega
  have hpf := MessageQueue.PushFront_valid q1 h (D.drop ns.sum) (D.drop ns.sum).length hh hdrop
  have hqueue : MessageQueue.queued
      (MessageQueue.PushFront q1 h (some (D.drop ns.sum)) (D.drop ns.sum).length).2 h
      = { data := D.drop ns.sum } :: MessageQueue.queued q1 h := by
    rw [hpf, MessageQueue.queued_set_self, MessageQueue.MessageEntry_new_full]
  refine ⟨hqueue, ?_, ⟨ws, rfl, hops, by rw [hwr]; simp⟩, ?_⟩
  · intro fd hne
    simp only [hpf]
    exact QueueMap.find_set_other _ _ _ _ hne
  · intro ps data hps
    have hall : MessageQueue.queued
        (MessageQueue.pushAll
          (MessageQueue.PushFront q1 h (some (D.drop ns.sum)) (D.drop ns.sum).length).2 h ps) h
        = ({ data := D.drop ns.sum } :: MessageQueue.queued q1 h)
            ++ ps.map MessageEntry.mk := by
      rw [MessageQueue.queued_pushAll _ h ps hh hps, hqueue]
    have hne : MessageQueue.queued
        (MessageQueue.pushAll
          (MessageQueue.PushFront q1 h (some (D.drop ns.sum)) (D.drop ns.sum).length).2 h ps) h
        ≠ [] := by
      rw [hall]
      simp
    rw [MessageQueue.GetMessages_nonempty _ h data hne, hall]
    refine ⟨rfl, ?_⟩
    have hmap : ∀ l : List (List Byte),
        (l.map MessageEntry.mk).map MessageEntry.data = l := by
      intro l
      induction l with
      | nil => rfl
      | cons a l ih => simp [ih]
    simp [hmap]

/-- C16. Short write loses and duplicates nothing: for a handle `h ≥ 0` whose queued
payloads concatenate to `D`, if the descriptor accepts the first `k` bytes of `D`
(`k < |D|`, in one or more writes) and the next write would block, then `HandleWrite(h)`
performs only those writes, the blocked write and one `ModifyEpoll(h, read + write)`;
the bytes written are exactly `D[0..k)`; the outbound queue of `h` then holds exactly
`D[k..)`, so that the next `GetMessages(h)` returns `D[k..)` followed by whatever is pushed
later; and the connection is not closed (no close operation, receive buffers untouched).
The unwritten suffix is put at the FRONT: `HandleWrite(h)` is its send loop entered with
the queue `GetMessages` left, and that loop, entered with any queue `q1` (entries pushed
for `h` since `GetMessages` took `D` included), leaves `D[k..)` as the first entry of the
queue of `h`, ahead of all entries of `q1`, so that the next `GetMessages(h)` returns
`D[k..)`, then the data of `q1`, then whatever is pushed later. -/
theorem EpollServer.short_write (s : EpollServer) (h : Int) (D : List Byte)
    (ns : List Nat) (rest : List WriteResult) (hh : 0 ≤ h)
    (hD : D = ((MessageQueue.queued s.m_send_queue h).map MessageEntry.data).flatten)
    (hlen : D.length < 2 ^ 64) (hk : ns.sum < D.length)
    (hw : s.writes = ns.map WriteResult.accepted ++ WriteResult.wouldBlock :: rest) :
    (∃ ws, (s.HandleWrite h).trace
          = s.trace ++ ws ++ [Op.write h (D.drop ns.sum) WriteResult.wouldBlock,
              Op.epoll_ctl_mod h (EPOLLIN ||| EPOLLOUT ||| EPOLLET)]
      ∧ (∀ op ∈ ws, ∃ buf n, op = Op.write h buf (WriteResult.accepted n))
      ∧ EpollServer.written h ws = D.take ns.sum
      ∧ MessageQueue.queued (s.HandleWrite h).m_send_queue h = [{ data := D.drop ns.sum }]
      ∧ (∀ (ps : List (List Byte)) (data : List Byte), (∀ p ∈ ps, p ≠ []) →
          (MessageQueue.GetMessages
              (MessageQueue.pushAll (s.HandleWrite h).m_send_queue h ps) h data).1 = true
          ∧ (MessageQueue.GetMessages
              (MessageQueue.pushAll (s.HandleWrite h).m_send_queue h ps) h data).2.2
            = D.drop ns.sum ++ ps.flatten)
      ∧ (s.HandleWrite h).m_recv_buffers = s.m_recv_buffers
      ∧ (s.HandleWrite h).writes = rest)
    ∧ s.HandleWrite h
        = EpollServer.HandleWrite.sendLoop h D s.writes 0
            { s with m_send_queue := (s.m_send_queue.GetMessages h []).2.1 }
    ∧ ∀ q1 : MessageQueue,
        MessageQueue.queued
            (EpollServer.HandleWrite.sendLoop h D s.writes 0
              { s with m_send_queue := q1 }).m_send_queue h
          = { data := D.drop ns.sum } :: MessageQueue.queued q1 h
        ∧ (∀ fd, fd ≠ h →
            QueueMap.find (EpollServer.HandleWrite.sendLoop h D s.writes 0
              { s with m_send_queue := q1 }).m_send_queue.m_queues fd
              = QueueMap.find q1.m_queues fd)
        ∧ (∃ ws, (EpollServer.HandleWrite.sendLoop h D s.writes 0
              { s with m_send_queue := q1 }).trace
              = s.trace ++ ws ++ [Op.write h (D.drop ns.sum) WriteResult.wouldBlock,
                  Op.epoll_ctl_mod h (EPOLLIN ||| EPOLLOUT ||| EPOLLET)]
            ∧ (∀ op ∈ ws, ∃ buf n, op = Op.write h buf (WriteResult.accepted n))
            ∧ EpollServer.written h ws = D.take ns.sum)
        ∧ (∀ (ps : List (List Byte)) (data : List Byte), (∀ p ∈ ps, p ≠ []) →
            (MessageQueue.GetMessages
                (MessageQueue.pushAll (EpollServer.HandleWrite.sendLoop h D s.writes 0
                  { s with m_send_queue := q1 }).m_send_queue h ps) h data).1 = true
            ∧ (MessageQueue.GetMessages
                (MessageQueue.pushAll (EpollServer.HandleWrite.sendLoop h D s.writes 0
                  { s with m_send_queue := q1 }).m_send_queue h ps) h data).2.2
              = D.drop ns.sum
                  ++ ((MessageQueue.queued q1 h).map MessageEntry.data).flatten
                  ++ ps.flatten) := by
  have hq : MessageQueue.queued s.m_send_queue h ≠ [] := by
    intro hnil
    rw [hnil] at hD
    simp only [List.map_nil, List.flatten_nil] at hD
    rw [hD] at hk
    simp at hk
  have hhas : MessageQueue.HasMessages s.m_send_queue h = true :=
    (MessageQueue.HasMessages_iff _ _).mpr hq
  have hget := MessageQueue.GetMessages_nonempty s.m_send_queue h [] hq
  rw [← hD] at hget
  have hentry : s.HandleWrite h
      = EpollServer.HandleWrite.sendLoop h D s.writes 0
          { s with m_send_queue := (s.m_send_queue.GetMessages h []).2.1 } := by
    unfold EpollServer.HandleWrite
    rw [hhas, if_pos rfl, hget]
  have hleft : MessageQueue.queued (s.m_send_queue.GetMessages h []).2.1 h = [] := by
    rw [hget]
    exact MessageQueue.queued_set_self _ _ _
  have hgen := fun q1 => EpollServer.sendLoop_requeue s h D ns rest q1 hh hlen hk hw
  refine ⟨?_, hentry, hgen⟩
  obtain ⟨hqueue, _, ⟨ws, htrace, hops, hwr⟩, hnext⟩ :=
    hgen (s.m_send_queue.GetMessages h []).2.1
  rw [← hentry, hleft] at hqueue hnext
  rw [← hentry] at htrace
  refine ⟨ws, htrace, hops, hwr, hqueue, ?_, ?_, ?_⟩
  · intro ps data hps
    have := hnext ps data hps
    simpa using this
  · obtain ⟨ws', hloop, _, _⟩ := EpollServer.sendLoop_short h D rest hlen ns 0
      { s with m_send_queue := (s.m_send_queue.GetMessages h []).2.1 } (by omega)
    rw [hentry]
    simp only [hw] at hloop ⊢
    rw [hloop]
  · obtain ⟨ws', hloop, _, _⟩ := EpollServer.sendLoop_short h D rest hlen ns 0
      { s with m_send_queue := (s.m_send_queue.GetMessages h []).2.1 } (by omega)
    rw [hentry]
    simp only [hw] at hloop ⊢
    rw [hloop]

/-- The state `sample_connected` with the payloads `[1, 2, 3]` and `[4, 5]` queued for
handle 5, in which the descriptor accepts 2 bytes, then 1 byte, then would block:
instance of C16 with `D = [1, 2, 3, 4, 5]` and `k = 3`; and its send loop entered when
the payload `[8]` has been pushed for handle 5 since `GetMessages`: the suffix `[4, 5]`
is queued ahead of `[8]`. -/
theorem EpollServer.short_write_witness :
    (∃ ws, (EpollServer.HandleWrite
          { EpollServer.sample_connected with
            m_send_queue := { m_queues := [(5, [{ data := [1, 2, 3] }, { data := [4, 5] }])] }
            writes := [WriteResult.accepted 2, WriteResult.accepted 1,
              WriteResult.wouldBlock] } 5).trace
        = [] ++ ws ++ [Op.write 5 ([1, 2, 3, 4, 5].drop [2, 1].sum) WriteResult.wouldBlock,
            Op.epoll_ctl_mod 5 (EPOLLIN ||| EPOLLOUT ||| EPOLLET)]
      ∧ EpollServer.written 5 ws = [1, 2, 3, 4, 5].take [2, 1].sum
      ∧ MessageQueue.queued (EpollServer.HandleWrite
          { EpollServer.sample_connected with
            m_send_queue := { m_queues := [(5, [{ data := [1, 2, 3] }, { data := [4, 5] }])] }
            writes := [WriteResult.accepted 2, WriteResult.accepted 1,
              WriteResult.wouldBlock] } 5).m_send_queue 5
        = [{ data := [1, 2, 3, 4, 5].drop [2, 1].sum }])
    ∧ MessageQueue.queued
        (EpollServer.HandleWrite.sendLoop 5 [1, 2, 3, 4, 5]
          [WriteResult.accepted 2, WriteResult.accepted 1, WriteResult.wouldBlock] 0
          { EpollServer.sample_connected with
            m_send_queue := { m_queues := [(5, [{ data := [8] }])] }
            writes := [WriteResult.accepted 2, WriteResult.accepted 1,
              WriteResult.wouldBlock] }).m_send_queue 5
      = { data := [1, 2, 3, 4, 5].drop [2, 1].sum }
          :: MessageQueue.queued { m_queues := [(5, [{ data := [8] }])] } 5 := by
  obtain ⟨⟨ws, h1, _, h3, h4, _⟩, _, hfront⟩ := EpollServer.short_write
    { EpollServer.sample_connected with
      m_send_queue := { m_queues := [(5, [{ data := [1, 2, 3] }, { data := [4, 5] }])] }
      writes := [WriteResult.accepted 2, WriteResult.accepted 1, WriteResult.wouldBlock] }
    5 [1, 2, 3, 4, 5] [2, 1] [] (by decide) (by decide) (by decide) (by decide) (by decide)
  exact ⟨⟨ws, h1, h3, h4⟩, (hfront { m_queues := [(5, [{ data := [8] }])] }).1⟩
